import Mathlib

/-!
Verification of the pixel-level simplification engine of the image-analyzer
repository (src/lib/utils/imageProcessing.ts, src/lib/utils/paintByNumbers.ts,
src/lib/utils/palettes.ts).

Shallow embedding conventions:
* a pixel buffer (JS `Uint8ClampedArray`) is a `List ℕ` of byte samples;
* JS floating-point arithmetic on luminosities, blend ratios and distances is
  modelled exactly: luminosity 0.299r + 0.587g + 0.114b is kept scaled by 1000
  as the integer 299r + 587g + 114b, and comparisons involving square roots
  are decided by the algebraically equivalent squared comparisons (the square
  root is strictly monotone on nonnegative reals), with bridging lemmas to the
  real-valued formulas where a claim mentions them;
* JS runtime failures (property access on `undefined`) are modelled with
  `Except String`;
* `for` loops over index ranges are modelled with `List.range`, and the
  boundary-walk `do/while` loop with an explicit fuel argument that provably
  dominates its iteration cap.
-/

/-- Scaled luminosity: `1000 * (0.299 r + 0.587 g + 0.114 b)`, exact because
the inputs are integers.  Source: `getLuminosity` in imageProcessing.ts. -/
def lum1000 (r g b : ℕ) : ℕ := 299 * r + 587 * g + 114 * b

/-- One quantized channel: `Math.round(Math.floor(value / step) * step)` with
`step = Math.floor(256 / levels)`; the rounding is the identity on an integer
product, and for `levels > 256` (`step = 0`) the JS NaN result is clamped to 0
by `Uint8ClampedArray`, matching `v / 0 * 0 = 0` on `ℕ`.
Source: `quantizeImage` loop body. -/
def quantizeChannel (levels v : ℕ) : ℕ := v / (256 / levels) * (256 / levels)

/-- The per-4-byte-group loop of `quantizeImage`/`posterizeImage`: channels
0,1,2 of each group are reduced, channel 3 (alpha) is copied.  A trailing
partial group (buffer length not a multiple of 4) behaves exactly like the
JS code: the in-bounds bytes are reduced (out-of-bounds reads/writes of the
source loop never land inside the output). -/
def quantizeLoop (levels : ℕ) : List ℕ → List ℕ
  | r :: g :: b :: a :: rest =>
      quantizeChannel levels r :: quantizeChannel levels g ::
        quantizeChannel levels b :: a :: quantizeLoop levels rest
  | [r, g, b] => [quantizeChannel levels r, quantizeChannel levels g, quantizeChannel levels b]
  | [r, g] => [quantizeChannel levels r, quantizeChannel levels g]
  | [r] => [quantizeChannel levels r]
  | [] => []

/-- `quantizeImage(imageData, width, height, levels)`: the width and height
parameters are accepted and ignored, exactly as in the source. -/
def quantizeImage (buf : List ℕ) (_width _height levels : ℕ) : List ℕ :=
  quantizeLoop levels buf

/-- `posterizeImage(imageData, levels)`: `Math.floor(value / factor) * factor`
with `factor = Math.floor(256 / levels)` — the same integer computation as
`quantizeChannel` (the quantize variant's extra `Math.round` is the identity
on the integer product). -/
def posterizeImage (buf : List ℕ) (levels : ℕ) : List ℕ :=
  quantizeLoop levels buf

/-- Uppercase hexadecimal digit characters, as produced by JS
`toString(16)` followed by `toUpperCase()`. -/
def hexDigitChar (n : ℕ) : Char :=
  ['0', '1', '2', '3', '4', '5', '6', '7', '8', '9',
   'A', 'B', 'C', 'D', 'E', 'F'].getD n '0'

/-- Digit expansion of `n` in base 16 (most significant first), with an
explicit fuel argument for structural recursion; fuel `n + 1` always
suffices since the value shrinks by a factor of 16 each step. -/
def hexDigitsAux : ℕ → ℕ → List Char
  | 0, _ => []
  | fuel + 1, n =>
      if n < 16 then [hexDigitChar n]
      else hexDigitsAux fuel (n / 16) ++ [hexDigitChar (n % 16)]

/-- One channel rendered in hex: JS pads a single digit with a leading
zero (`hex.length === 1 ? '0' + hex : hex`). -/
def byteHex (n : ℕ) : List Char :=
  let ds := hexDigitsAux (n + 1) n
  if ds.length = 1 then '0' :: ds else ds

/-- `rgbToHex` from imageProcessing.ts: `#` followed by the three
zero-padded uppercase hex channels. -/
def rgbToHex (r g b : ℕ) : String :=
  String.mk ('#' :: (byteHex r ++ byteHex g ++ byteHex b))

/-- Value of a single hexadecimal digit character, case-insensitive
(the JS regular expression uses character class a-f with the i flag). -/
def hexDigitVal? (ch : Char) : Option ℕ :=
  if '0' ≤ ch ∧ ch ≤ '9' then some (ch.toNat - '0'.toNat)
  else if 'a' ≤ ch ∧ ch ≤ 'f' then some (ch.toNat - 'a'.toNat + 10)
  else if 'A' ≤ ch ∧ ch ≤ 'F' then some (ch.toNat - 'A'.toNat + 10)
  else none

/-- `hexToRgb` from palettes.ts: an optional leading `#`, then exactly six
hex digits (the regular expression is anchored at both ends); anything
else — including the empty string — parses as black `(0,0,0)`. -/
def hexToRgb (s : String) : ℕ × ℕ × ℕ :=
  let cs :=
    match s.toList with
    | '#' :: rest => rest
    | other => other
  match cs with
  | [c1, c2, c3, c4, c5, c6] =>
      match hexDigitVal? c1, hexDigitVal? c2, hexDigitVal? c3,
            hexDigitVal? c4, hexDigitVal? c5, hexDigitVal? c6 with
      | some v1, some v2, some v3, some v4, some v5, some v6 =>
          (16 * v1 + v2, 16 * v3 + v4, 16 * v5 + v6)
      | _, _, _, _, _, _ => (0, 0, 0)
  | _ => (0, 0, 0)

/-- An expanded-palette entry: rgb plus the stored luminosity (scaled by
1000, see `lum1000`).  Source: the element type of `generateMixedPalette`'s
result in imageProcessing.ts. -/
structure PalEntry where
  r : ℕ
  g : ℕ
  b : ℕ
  lum : ℕ
deriving DecidableEq

/-- Build an entry carrying its own luminosity, as every push in
`generateMixedPalette` does. -/
def mkEntry (r g b : ℕ) : PalEntry := ⟨r, g, b, lum1000 r g b⟩

/-- `mixColors` per channel: `Math.round(c1·(1−ratio) + c2·ratio)` with the
ratio given as the exact fraction `p / q`; `Math.round` is floor(x + 1/2),
i.e. `(2·(c1·(q−p) + c2·p) + q) / (2·q)` over ℕ.  The JS float ratios
0.25/0.5/0.75 are exact; 0.33/0.66 are idealized to 33/100 and 66/100. -/
def mixChannel (c1 c2 p q : ℕ) : ℕ := (2 * (c1 * (q - p) + c2 * p) + q) / (2 * q)

/-- `mixColors` on full rgb triples, packaged as a palette entry. -/
def mixEntry (a b : ℕ × ℕ × ℕ) (f : ℕ × ℕ) : PalEntry :=
  mkEntry (mixChannel a.1 b.1 f.1 f.2) (mixChannel a.2.1 b.2.1 f.1 f.2)
    (mixChannel a.2.2 b.2.2 f.1 f.2)

/-- Tint/shade ratios 0.25, 0.5, 0.75 as exact fractions. -/
def tintFracs : List (ℕ × ℕ) := [(1, 4), (2, 4), (3, 4)]

/-- Pairwise blend ratios 0.33, 0.5, 0.66 as exact fractions. -/
def blendFracs : List (ℕ × ℕ) := [(33, 100), (50, 100), (66, 100)]

/-- `generateMixedPalette` from imageProcessing.ts: the pure base colors,
then per base color three tints (blend toward white) and three shades
(blend toward black), then for each unordered pair of base colors three
blends.  The inner JS loop `for j = i+1 .. n-1` is the filter `i < j`
over the full index range, preserving order.  No de-duplication. -/
def generateMixedPalette (hexes : List String) : List PalEntry :=
  let base := hexes.map hexToRgb
  (base.map fun c => mkEntry c.1 c.2.1 c.2.2) ++
    (base.flatMap fun c =>
      (tintFracs.map fun f => mixEntry c (255, 255, 255) f) ++
        (tintFracs.map fun f => mixEntry c (0, 0, 0) f)) ++
    ((List.range base.length).flatMap fun i =>
      (List.range base.length).flatMap fun j =>
        if i < j then blendFracs.map (mixEntry (base.getD i (0, 0, 0)) (base.getD j (0, 0, 0)))
        else [])

/-- The comparator of the luminosity sort in `remapImageToPalette`
(`(a, b) => a.luminosity - b.luminosity`, ascending). -/
def lumLE (a b : PalEntry) : Prop := a.lum ≤ b.lum

instance : DecidableRel lumLE := fun a b => Nat.decLe a.lum b.lum

instance : IsTotal PalEntry lumLE := ⟨fun a b => Nat.le_total a.lum b.lum⟩

instance : IsTrans PalEntry lumLE := ⟨fun _ _ _ h1 h2 => Nat.le_trans h1 h2⟩

/-- The expanded palette sorted ascending by luminosity, the scan order of
the matching loop.  Insertion sort is stable, like the JS engine sort. -/
def sortedPalette (hexes : List String) : List PalEntry :=
  (generateMixedPalette hexes).insertionSort lumLE

/-- Luminosity part of the matching score, scaled by 1000:
`|pixelLuminosity − candidateLuminosity| · 1000`. -/
def scoreA (r g b : ℕ) (c : PalEntry) : ℕ :=
  ((lum1000 r g b : ℤ) - (c.lum : ℤ)).natAbs

/-- Squared Euclidean RGB distance between pixel and candidate. -/
def scoreD (r g b : ℕ) (c : PalEntry) : ℕ :=
  (((r : ℤ) - c.r) ^ 2 + ((g : ℤ) - c.g) ^ 2 + ((b : ℤ) - c.b) ^ 2).toNat

/-- Exact decision of the strict score comparison.  The JS score is
`1.5·|Δlum| + 0.15·√dist2 = (3/2000)·(scoreA + 100·√scoreD)`, so comparing
scores is comparing `a + 100·√d` values; this function decides
`a1 + 100·√d1 < a2 + 100·√d2` by integer arithmetic (case analysis on the
sign of `A = a2 − a1` and squaring, each step reversible because both sides
are then of one sign).  `scoreLT_iff` below proves the equivalence. -/
def scoreLT (a1 d1 a2 d2 : ℕ) : Bool :=
  let A : ℤ := (a2 : ℤ) - (a1 : ℤ)
  if A < 0 ∧ 10000 * (d2 : ℤ) < A ^ 2 then false
  else
    let B : ℤ := 10000 * (d1 : ℤ) - 10000 * (d2 : ℤ) - A ^ 2
    if 0 ≤ A then decide (B < 0) || decide (B ^ 2 < 40000 * A ^ 2 * (d2 : ℤ))
    else decide (B < 0) && decide (40000 * A ^ 2 * (d2 : ℤ) < B ^ 2)

/-- The four channels of pixel `p` of a buffer (out-of-range reads give 0,
only used under in-range hypotheses). -/
def quadAt (buf : List ℕ) (p : ℕ) : ℕ × ℕ × ℕ × ℕ :=
  (buf.getD (4 * p) 0, buf.getD (4 * p + 1) 0, buf.getD (4 * p + 2) 0,
    buf.getD (4 * p + 3) 0)

/-- One iteration of the matching loop of `remapImageToPalette`: the state is
the current best entry together with its score components (`none` models the
initial `minScore = Infinity`, which every finite score beats). -/
def bestStep (r g b : ℕ) (acc : PalEntry × Option (ℕ × ℕ)) (c : PalEntry) :
    PalEntry × Option (ℕ × ℕ) :=
  match acc.2 with
  | none => (c, some (scoreA r g b c, scoreD r g b c))
  | some (ba, bd) =>
      if scoreLT (scoreA r g b c) (scoreD r g b c) ba bd then
        (c, some (scoreA r g b c, scoreD r g b c))
      else acc

/-- The matching loop over the whole (sorted) candidate list; `e0` is the JS
initialization `bestMatch = expandedPalette[0]`, which is only the final
answer when no candidate scores below `Infinity` — i.e. never for a real
pixel over a nonempty list. -/
def pickBest (r g b : ℕ) (e0 : PalEntry) (l : List PalEntry) : PalEntry :=
  (l.foldl (bestStep r g b) (e0, none)).1

/-- The per-4-byte-group loop of `remapImageToPalette`.  A trailing partial
group reads out-of-bounds (`undefined`), so the pixel luminosity and every
score are NaN; no NaN compares below `minScore`, hence the best match stays
`expandedPalette[0] = e0` and its channels fill the remaining in-bounds
output bytes. -/
def remapLoop (sorted : List PalEntry) (e0 : PalEntry) : List ℕ → List ℕ
  | r :: g :: b :: a :: rest =>
      (pickBest r g b e0 sorted).r :: (pickBest r g b e0 sorted).g ::
        (pickBest r g b e0 sorted).b :: a :: remapLoop sorted e0 rest
  | [_, _, _] => [e0.r, e0.g, e0.b]
  | [_, _] => [e0.r, e0.g]
  | [_] => [e0.r]
  | [] => []

/-- `remapImageToPalette` from imageProcessing.ts.  With an empty expanded
palette and a nonempty buffer the JS code reads `bestMatch.r` on
`undefined` and throws, modelled as an error; otherwise every pixel is
replaced by its best-scoring candidate, alpha preserved. -/
def remapImageToPalette (buf : List ℕ) (hexes : List String) :
    Except String (List ℕ) :=
  match sortedPalette hexes with
  | [] =>
      if buf = [] then Except.ok []
      else Except.error "TypeError: cannot read properties of undefined"
  | e0 :: rest => Except.ok (remapLoop (e0 :: rest) e0 buf)

instance {ε α : Type} [DecidableEq ε] [DecidableEq α] : DecidableEq (Except ε α)
  | Except.ok a, Except.ok b =>
      if h : a = b then isTrue (by rw [h]) else isFalse (by intro hc; cases hc; exact h rfl)
  | Except.error a, Except.error b =>
      if h : a = b then isTrue (by rw [h]) else isFalse (by intro hc; cases hc; exact h rfl)
  | Except.ok _, Except.error _ => isFalse (by intro hc; cases hc)
  | Except.error _, Except.ok _ => isFalse (by intro hc; cases hc)

/-- The quantity whose strict comparison `scoreLT` decides: the JS matching
score equals `(3/2000) · keyR` (see `scoreSpec_eq_keyR`). -/
noncomputable def keyR (r g b : ℕ) (c : PalEntry) : ℝ :=
  (scoreA r g b c : ℝ) + 100 * Real.sqrt (scoreD r g b c)

/-- The matching score exactly as the specification writes it:
`1.5·|pixelLuminosity − candidateLuminosity| + 0.15·EuclideanRGBDistance`. -/
noncomputable def scoreSpec (r g b : ℕ) (c : PalEntry) : ℝ :=
  1.5 * |(0.299 * (r : ℝ) + 0.587 * (g : ℝ) + 0.114 * (b : ℝ)) -
      (0.299 * (c.r : ℝ) + 0.587 * (c.g : ℝ) + 0.114 * (c.b : ℝ))| +
    0.15 * Real.sqrt (((r : ℝ) - c.r) ^ 2 + ((g : ℝ) - c.g) ^ 2 + ((b : ℝ) - c.b) ^ 2)

/-- `e` is the first minimizer of `key` in `l`: it occurs in `l`, every
earlier element scores strictly higher, and no element scores lower. -/
def IsFirstMin (key : PalEntry → ℝ) (e : PalEntry) (l : List PalEntry) : Prop :=
  ∃ l1 l2, l = l1 ++ e :: l2 ∧ (∀ c ∈ l1, key e < key c) ∧ (∀ c ∈ l, key e ≤ key c)

/-- The grayscale plane of `detectEdgesSobel`: the luminosity of pixel `q`,
scaled by 1000 (the JS code stores the float value in a `Float32Array`; the
claims proved about it are insensitive to that rounding because they only
rely on equal inputs producing equal gray values). -/
def grayAt (buf : List ℕ) (q : ℕ) : ℕ :=
  lum1000 (buf.getD (4 * q) 0) (buf.getD (4 * q + 1) 0) (buf.getD (4 * q + 2) 0)

/-- Horizontal Sobel response (kernel [-1 0 1; -2 0 2; -1 0 1]) at interior
pixel (x, y), scaled by 1000; only evaluated with `1 ≤ x` and `1 ≤ y`. -/
def sobelGx (buf : List ℕ) (w x y : ℕ) : ℤ :=
  -(grayAt buf ((y - 1) * w + (x - 1)) : ℤ) + (grayAt buf ((y - 1) * w + (x + 1)) : ℤ) -
    2 * (grayAt buf (y * w + (x - 1)) : ℤ) + 2 * (grayAt buf (y * w + (x + 1)) : ℤ) -
    (grayAt buf ((y + 1) * w + (x - 1)) : ℤ) + (grayAt buf ((y + 1) * w + (x + 1)) : ℤ)

/-- Vertical Sobel response (kernel [-1 -2 -1; 0 0 0; 1 2 1]), scaled by
1000. -/
def sobelGy (buf : List ℕ) (w x y : ℕ) : ℤ :=
  -(grayAt buf ((y - 1) * w + (x - 1)) : ℤ) - 2 * (grayAt buf ((y - 1) * w + x) : ℤ) -
    (grayAt buf ((y - 1) * w + (x + 1)) : ℤ) + (grayAt buf ((y + 1) * w + (x - 1)) : ℤ) +
    2 * (grayAt buf ((y + 1) * w + x) : ℤ) + (grayAt buf ((y + 1) * w + (x + 1)) : ℤ)

/-- The binarization test `Math.sqrt(gx*gx + gy*gy) > threshold`: both sides
are nonnegative, so it is equivalent to the squared comparison
`gx² + gy² > threshold²`, scaled by 1000². -/
def sobelEdge (buf : List ℕ) (w t x y : ℕ) : Bool :=
  decide (1000000 * (t : ℤ) ^ 2 < sobelGx buf w x y ^ 2 + sobelGy buf w x y ^ 2)

/-- Byte `j` of the `detectEdgesSobel` output: the Sobel loops only write
interior pixels (`1 ≤ x ≤ w−2`, `1 ≤ y ≤ h−2`) — edge pixels as opaque
black (0,0,0,255), others as opaque white — while the 1-pixel border is
never written and keeps the zero-initialized `Uint8ClampedArray` value
(0,0,0,0). -/
def sobelByte (buf : List ℕ) (w h t j : ℕ) : ℕ :=
  let p := j / 4
  let c := j % 4
  let x := p % w
  let y := p / w
  if 1 ≤ x ∧ x + 1 < w ∧ 1 ≤ y ∧ y + 1 < h then
    if sobelEdge buf w t x y then (if c = 3 then 255 else 0) else 255
  else 0

/-- `detectEdgesSobel` from paintByNumbers.ts, as a positional map over the
output indices (exact for geometry-consistent buffers, the domain on which
the function is specified). -/
def detectEdgesSobel (buf : List ℕ) (w h t : ℕ) : List ℕ :=
  (List.range buf.length).map (sobelByte buf w h t)

/-- `edges[(y*w + x)*4] === 0` — the red-channel-only edge test of
`thickenLines`, with the exact JS out-of-range semantics (`undefined === 0`
is false, modelled by `Option`). -/
def isEdgePx (edges : List ℕ) (w xe ye : ℕ) : Bool :=
  decide (edges.get? (4 * (ye * w + xe)) = some 0)

/-- Whether the square of radius `rad` around some edge pixel covers
(x, y): the dilation loop writes `nx = xe + dx`, `ny = ye + dy` for
`dx, dy ∈ [−rad, rad]`, i.e. exactly the in-grid pixels within Chebyshev
distance `rad` of an edge pixel. -/
def nearEdge (edges : List ℕ) (w h rad x y : ℕ) : Bool :=
  decide (∃ xe < w, ∃ ye < h, isEdgePx edges w xe ye = true ∧
    Nat.dist x xe ≤ rad ∧ Nat.dist y ye ≤ rad)

/-- Byte `j` of the `thickenLines` output (thickness > 1 path): the buffer
is initialized to opaque white, then every in-grid pixel within radius
`⌊thickness/2⌋` of an edge pixel is overwritten with opaque black; alpha is
255 either way. -/
def thickByte (edges : List ℕ) (w h thickness j : ℕ) : ℕ :=
  let p := j / 4
  let c := j % 4
  if c = 3 then 255
  else if p < w * h ∧ nearEdge edges w h (thickness / 2) (p % w) (p / w) = true then 0
  else 255

/-- `thickenLines` from paintByNumbers.ts: thickness ≤ 1 returns the input
array unchanged; otherwise a fresh buffer is produced as above. -/
def thickenLines (edges : List ℕ) (w h thickness : ℕ) : List ℕ :=
  if thickness ≤ 1 then edges
  else (List.range edges.length).map (thickByte edges w h thickness)

/-- Numerator of the point-to-chord distance in `perpendicularDistance`:
`(y2−y1)·x − (x2−x1)·y + x2·y1 − y2·x1` (an integer for integer points). -/
def perpNum (pt s e : ℤ × ℤ) : ℤ :=
  (e.2 - s.2) * pt.1 - (e.1 - s.1) * pt.2 + e.1 * s.2 - e.2 * s.1

/-- Squared chord length, the square of the denominator of
`perpendicularDistance`. -/
def chordDen (s e : ℤ × ℤ) : ℤ := (e.2 - s.2) ^ 2 + (e.1 - s.1) ^ 2

/-- The maximum-distance scan of `simplifyContour` over interior indices
1 … n−2: all distances share the same chord, so the strict comparisons
`distance > maxDistance` coincide with comparisons of the absolute
numerators; when the chord is degenerate (`denominator === 0`) every
distance is 0 and the scan never updates.  Returns (index, |numerator|). -/
def maxPerp (pts : List (ℤ × ℤ)) : ℕ × ℕ :=
  let s := pts.getD 0 (0, 0)
  let e := pts.getD (pts.length - 1) (0, 0)
  if chordDen s e = 0 then (0, 0)
  else
    ((List.range (pts.length - 2)).map (· + 1)).foldl
      (fun acc i =>
        if acc.2 < (perpNum (pts.getD i (0, 0)) s e).natAbs then
          (i, (perpNum (pts.getD i (0, 0)) s e).natAbs)
        else acc)
      (0, 0)

/-- Exact decision of `maxDistance > epsilon`, where the distance is
`|num| / √den` for `den > 0` and `0` for `den = 0`: a negative epsilon is
always exceeded, and for `epsilon ≥ 0` the comparison squares to
`epsilon²·den < num²` (both sides then nonnegative, as in `scoreLT`). -/
def distGTeps (v : ℕ) (den : ℤ) (eps : ℚ) : Bool :=
  if den = 0 then decide (eps < 0)
  else decide (eps < 0) || decide (eps ^ 2 * (den : ℚ) < ((v : ℚ)) ^ 2)

/-- `simplifyContour` from paintByNumbers.ts (Ramer–Douglas–Peucker), with an
explicit fuel argument: the JS recursion is unbounded, and for a negative
epsilon it need not terminate (`maxDistance > epsilon` holds with the split
index stuck at 0, so one recursive call receives the whole input again);
`none` models that divergence (a stack overflow at runtime).  `take (i+1)`
and `drop i` are `slice(0, index+1)` and `slice(index)`, and
`left.slice(0, -1).concat(right)` is `left.dropLast ++ right`. -/
def simplifyFuel : ℕ → List (ℤ × ℤ) → ℚ → Option (List (ℤ × ℤ))
  | 0, _, _ => none
  | fuel + 1, pts, eps =>
      if pts.length < 3 then some pts
      else
        let s := pts.getD 0 (0, 0)
        let e := pts.getD (pts.length - 1) (0, 0)
        if distGTeps (maxPerp pts).2 (chordDen s e) eps then do
          let left ← simplifyFuel fuel (pts.take ((maxPerp pts).1 + 1)) eps
          let right ← simplifyFuel fuel (pts.drop (maxPerp pts).1) eps
          some (left.dropLast ++ right)
        else some [s, e]

/-- `simplifyContour` with the fuel that suffices for every terminating run:
each recursive call splits at an interior index, so the recursion depth is
bounded by the point count. -/
def simplifyContour (pts : List (ℤ × ℤ)) (eps : ℚ) : Option (List (ℤ × ℤ)) :=
  simplifyFuel (pts.length + 1) pts eps

/-- State of the `traceContour` do/while loop: the contour accumulated so
far (in push order), the current position, the facing direction (index into
the 8-neighborhood), and the iteration counter. -/
structure WalkState where
  contour : List (ℤ × ℤ)
  x : ℤ
  y : ℤ
  dir : ℕ
  iter : ℕ
deriving DecidableEq

/-- The 8-neighborhood in the order of the `directions` array of
`traceContour`: right, up-right, up, up-left, left, down-left, down,
down-right. -/
def mooreDirs : List (ℤ × ℤ) :=
  [(1, 0), (1, -1), (0, -1), (-1, -1), (-1, 0), (-1, 1), (0, 1), (1, 1)]

/-- Whether (nx, ny) touches a pixel outside the region or outside the
image bounds through any of its 8 neighbors — the inner `isBoundary` scan
of `traceContour`. -/
def isBoundaryPx (region : Finset (ℤ × ℤ)) (w h : ℕ) (nx ny : ℤ) : Bool :=
  mooreDirs.any fun d =>
    decide (nx + d.1 < 0) || decide ((w : ℤ) ≤ nx + d.1) ||
      decide (ny + d.2 < 0) || decide ((h : ℤ) ≤ ny + d.2) ||
      decide ((nx + d.1, ny + d.2) ∉ region)

/-- The neighbor scan of one loop pass: starting from the current facing
direction, the first of the 8 neighbors (scanned cyclically) that lies in
the region and is itself a boundary pixel, together with the direction
taken; `none` when no neighbor qualifies (`found` stays false and the loop
breaks). -/
def findNext (region : Finset (ℤ × ℤ)) (w h : ℕ) (x y : ℤ) (dir : ℕ) :
    Option (ℤ × ℤ × ℕ) :=
  (List.range 8).findSome? fun i =>
    let cd := (dir + i) % 8
    let d := mooreDirs.getD cd (0, 0)
    if (x + d.1, y + d.2) ∈ region ∧ isBoundaryPx region w h (x + d.1) (y + d.2) = true then
      some (x + d.1, y + d.2, cd)
    else none

/-- The do/while loop of `traceContour` with explicit fuel.  Each pass
pushes the current position, scans for the next boundary neighbor, and
continues while the position differs from the start, the iteration count is
below the cap AND the contour is still shorter than the region size (the
third conjunct of the JS loop condition).  Fuel `maxIter + 1` dominates the
iteration guard, so the fuel-exhaustion branch is unreachable from the
initial state.  (The JS `visited` set is written on every pass but never
read, so it has no effect on the state and is omitted here.) -/
def walkLoop (region : Finset (ℤ × ℤ)) (w h : ℕ) (start : ℤ × ℤ)
    (maxIter size : ℕ) : ℕ → WalkState → WalkState
  | 0, st => st
  | fuel + 1, st =>
      let st1 : WalkState := { st with contour := st.contour ++ [(st.x, st.y)] }
      match findNext region w h st.x st.y st.dir with
      | none => st1
      | some (nx, ny, cd) =>
          let st2 : WalkState :=
            { contour := st1.contour, x := nx, y := ny, dir := cd, iter := st1.iter + 1 }
          if (nx, ny) ≠ start ∧ st2.iter < maxIter ∧ st2.contour.length < size then
            walkLoop region w h start maxIter size fuel st2
          else st2

/-- The final state of the boundary walk as `traceContour` runs it: cap
`min(2·regionSize, 10000)`, contour-length bound `regionSize`, initial
facing direction 0 (right), fuel one more than the iteration cap. -/
def traceWalk (region : Finset (ℤ × ℤ)) (w h : ℕ) (sx sy : ℤ) : WalkState :=
  walkLoop region w h (sx, sy) (min (2 * region.card) 10000) region.card
    (min (2 * region.card) 10000 + 1) ⟨[], sx, sy, 0, 0⟩

/-- `traceContour` from paintByNumbers.ts: regions under 3 pixels are
skipped; a traced path of more than 3 points is simplified with epsilon 2.5
(that call always terminates — epsilon ≥ 0 — so the `none` fallback is
unreachable), anything shorter is discarded. -/
def traceContour (region : Finset (ℤ × ℤ)) (w h : ℕ) (sx sy : ℤ) : List (ℤ × ℤ) :=
  if region.card < 3 then []
  else if 3 < (traceWalk region w h sx sy).contour.length then
    match simplifyContour (traceWalk region w h sx sy).contour (5 / 2) with
    | some out => out
    | none => []
  else []

/-- The x-axis-aligned 3-pixel region used in the C6 counterexample. -/
def cexRegion : Finset (ℤ × ℤ) := {(0, 0), (1, 0), (2, 0)}

/-- An rgba sample, as the objects pushed into the `pixels` array of
`extractDominantColors`. -/
structure RGBA where
  r : ℕ
  g : ℕ
  b : ℕ
  a : ℕ
deriving DecidableEq

/-- The result entries of `extractDominantColors`. -/
structure ColorCluster where
  r : ℕ
  g : ℕ
  b : ℕ
  hex : String
deriving DecidableEq

/-- One sampled pixel: the four reads `imageData[i] … imageData[i+3]`. -/
def pixelAt (buf : List ℕ) (i : ℕ) : RGBA :=
  ⟨buf.getD i 0, buf.getD (i + 1) 0, buf.getD (i + 2) 0, buf.getD (i + 3) 0⟩

/-- The sampling loop `for (i = 0; i < length; i += sampleRate * 4)`:
indices `4·s·j` for `j < ⌈length / (4·s)⌉`.  (With `s = 0` the JS loop
would never advance; every caller passes `s ≥ 1`.) -/
def sampledPixels (buf : List ℕ) (s : ℕ) : List RGBA :=
  (List.range ((buf.length + 4 * s - 1) / (4 * s))).map fun j => pixelAt buf (j * (4 * s))

/-- `initCentroids`: `step = ⌊n/k⌋`, push `pixels[i·step]` whenever
`i·step < n`.  For `1 ≤ n < k` the step is 0 and the condition always
holds, so the first sample is pushed k times. -/
def initCentroids (pixels : List RGBA) (k : ℕ) : List RGBA :=
  (List.range k).filterMap fun i =>
    if i * (pixels.length / k) < pixels.length then pixels.get? (i * (pixels.length / k))
    else none

/-- Squared Euclidean RGB distance; `colorDistance` takes the square root,
which is strictly monotone, so the strict comparisons of the assignment
loop coincide with comparisons of the squares. -/
def colorDist2 (p q : RGBA) : ℤ :=
  ((p.r : ℤ) - q.r) ^ 2 + ((p.g : ℤ) - q.g) ^ 2 + ((p.b : ℤ) - q.b) ^ 2

/-- The nearest-centroid scan: `minDist = Infinity`, `closestIdx = 0`, a
strictly smaller distance updates the index — first minimum wins.  State:
(position counter, best index, best distance so far). -/
def assignIdx (cs : List RGBA) (p : RGBA) : ℕ :=
  (cs.foldl
    (fun st c =>
      match st.2.2 with
      | none => (st.1 + 1, st.1, some (colorDist2 p c))
      | some m =>
          if colorDist2 p c < m then (st.1 + 1, st.1, some (colorDist2 p c))
          else (st.1 + 1, st.2.1, some m))
    ((0, 0, none) : ℕ × ℕ × Option ℤ)).2.1

/-- `Math.round(sum / count)` for naturals (round half up), exact. -/
def roundDiv (s c : ℕ) : ℕ := (2 * s + c) / (2 * c)

/-- The centroid update for a nonempty cluster: channel-wise rounded mean,
alpha set to 255 as in the source. -/
def meanRGBA (l : List RGBA) : RGBA :=
  ⟨roundDiv (l.map RGBA.r).sum l.length, roundDiv (l.map RGBA.g).sum l.length,
    roundDiv (l.map RGBA.b).sum l.length, 255⟩

/-- `centroids[i]` with JS out-of-range semantics: an index past the end
reads `undefined` (`none`). -/
def slotAt (cs : List (Option RGBA)) (i : ℕ) : Option RGBA := (cs.get? i).getD none

/-- One k-means iteration of `extractDominantColors`.  Centroid slots are
`Option RGBA`: `none` is the JS `undefined` that appears when
`initCentroids` returned fewer than `numColors` entries (possible only for
an empty sample list).  With no pixels no distance is ever computed and
every cluster is empty, so each slot keeps its previous value
(`centroids[i]`, `undefined` past the end).  With pixels present, a `none`
slot would make `colorDistance` read `.r` of `undefined` and throw, and
`numColors = 0` would make `clusters[0].push` throw; in the remaining case
all slots are real (`filterMap id` is exactly the centroid array — in every
state reachable from `extractDominantColors` with pixels present the slots
are all `some` and their count equals `numColors`). -/
def kmeansStep (pixels : List RGBA) (k : ℕ) (cs : List (Option RGBA)) :
    Except String (List (Option RGBA)) :=
  if pixels.isEmpty then Except.ok ((List.range k).map fun i => slotAt cs i)
  else if cs.any fun c => c.isNone then
    Except.error "TypeError: cannot read properties of undefined"
  else if k = 0 then Except.error "TypeError: cannot read properties of undefined"
  else
    Except.ok ((List.range k).map fun i =>
      if (pixels.filter fun p => assignIdx (cs.filterMap id) p = i).isEmpty then slotAt cs i
      else some (meanRGBA (pixels.filter fun p => assignIdx (cs.filterMap id) p = i)))

/-- `extractDominantColors` from imageProcessing.ts: sample, seed, exactly 3
refinement passes, then map every centroid to an rgb/hex record — reading
`.r` of an `undefined` centroid (empty sample set) throws. -/
def extractDominantColors (buf : List ℕ) (_width _height k s : ℕ) :
    Except String (List ColorCluster) := do
  let pixels := sampledPixels buf s
  let cs1 ← kmeansStep pixels k ((initCentroids pixels k).map some)
  let cs2 ← kmeansStep pixels k cs1
  let cs3 ← kmeansStep pixels k cs2
  cs3.mapM fun c =>
    match c with
    | some c => Except.ok (⟨c.r, c.g, c.b, rgbToHex c.r c.g c.b⟩ : ColorCluster)
    | none => Except.error "TypeError: cannot read properties of undefined"

theorem quantizeChannel_idem (levels v : ℕ) :
    quantizeChannel levels (quantizeChannel levels v) = quantizeChannel levels v := by
  unfold quantizeChannel
  rcases Nat.eq_zero_or_pos (256 / levels) with h | h
  · simp [h]
  · rw [Nat.mul_div_cancel _ h]

theorem quantizeLoop_idem (levels : ℕ) :
    ∀ l : List ℕ, quantizeLoop levels (quantizeLoop levels l) = quantizeLoop levels l := by
  intro l
  induction l using quantizeLoop.induct levels with
  | case1 r g b a rest ih =>
      simp [quantizeLoop, quantizeChannel_idem, ih]
  | case2 r g b => simp [quantizeLoop, quantizeChannel_idem]
  | case3 r g => simp [quantizeLoop, quantizeChannel_idem]
  | case4 r => simp [quantizeLoop, quantizeChannel_idem]
  | case5 => simp [quantizeLoop]

theorem quantizeLoop_length (levels : ℕ) :
    ∀ l : List ℕ, (quantizeLoop levels l).length = l.length := by
  intro l
  induction l using quantizeLoop.induct levels with
  | case1 r g b a rest ih => simp [quantizeLoop, ih]
  | case2 r g b => simp [quantizeLoop]
  | case3 r g => simp [quantizeLoop]
  | case4 r => simp [quantizeLoop]
  | case5 => simp [quantizeLoop]

/-- C7: for every level count L and every channel value x,
`quantize(quantize(x, L), L) = quantize(x, L)`, and applying `quantizeImage`
or `posterizeImage` twice with the same level count equals applying it
once. -/
theorem c7_quantize_posterize_idempotent
    (L x : ℕ) (buf : List ℕ) (w h w2 h2 : ℕ) :
    quantizeChannel L (quantizeChannel L x) = quantizeChannel L x ∧
    quantizeImage (quantizeImage buf w h L) w2 h2 L = quantizeImage buf w h L ∧
    posterizeImage (posterizeImage buf L) L = posterizeImage buf L := by
  refine ⟨quantizeChannel_idem L x, ?_, ?_⟩
  · exact quantizeLoop_idem L buf
  · exact quantizeLoop_idem L buf

/-- C1 counterexample: a buffer of length 8 declared as a 1×1 image
(8 ≠ 1·1·4, invalid geometry) is not rejected: `quantizeImage` processes
every pixel and returns an ordinary output buffer instead of an error — the
code contains no geometry check at all. -/
theorem c1_no_geometry_rejection_cex :
    ([200, 200, 200, 255, 100, 100, 100, 255] : List ℕ).length ≠ 1 * 1 * 4 ∧
    quantizeImage [200, 200, 200, 255, 100, 100, 100, 255] 1 1 2 =
      [128, 128, 128, 255, 0, 0, 0, 255] := by
  constructor
  · decide
  · decide

theorem length_flatMap_const {α β : Type} (l : List α) (f : α → List β) (c : ℕ)
    (h : ∀ a ∈ l, (f a).length = c) : (l.flatMap f).length = c * l.length := by
  induction l with
  | nil => simp
  | cons x xs ih =>
      rw [List.flatMap_cons, List.length_append, h x (by simp),
        ih (fun a ha => h a (by simp [ha]))]
      simp [Nat.mul_succ]
      ring

theorem sum_list_range_eq (n : ℕ) (f : ℕ → ℕ) :
    ((List.range n).map f).sum = ∑ i ∈ Finset.range n, f i := by
  induction n with
  | zero => simp
  | succ m ih =>
      rw [List.range_succ, Finset.sum_range_succ, List.map_append, List.sum_append, ih]
      simp

theorem pair_blend_length (n : ℕ) (g : ℕ → ℕ → List PalEntry)
    (hg : ∀ i j, (g i j).length = 3) :
    ((List.range n).flatMap fun i =>
      (List.range n).flatMap fun j => if i < j then g i j else []).length =
      3 * (n * (n - 1) / 2) := by
  rw [List.length_flatMap]
  simp only [Function.comp_def]
  have inner : ∀ i, ((List.range n).flatMap fun j => if i < j then g i j else []).length =
      3 * (n - 1 - i) := by
    intro i
    rw [List.length_flatMap]
    simp only [Function.comp_def]
    have hmap : ((List.range n).map fun j =>
        (if i < j then g i j else []).length) =
        (List.range n).map fun j => if i < j then 3 else 0 := by
      apply List.map_congr_left
      intro j _
      by_cases hij : i < j <;> simp [hij, hg]
    rw [hmap, sum_list_range_eq]
    have hfil : ((Finset.range n).filter fun j => i < j) = Finset.Ioo i n := by
      ext j
      simp [Finset.mem_Ioo, and_comm]
    rw [← Finset.sum_filter, hfil, Finset.sum_const, Nat.card_Ioo, smul_eq_mul]
    omega
  have hmap2 : ((List.range n).map fun i =>
      ((List.range n).flatMap fun j => if i < j then g i j else []).length) =
      (List.range n).map fun i => 3 * (n - 1 - i) := by
    apply List.map_congr_left
    intro i _
    exact inner i
  rw [hmap2, sum_list_range_eq, Finset.sum_range_reflect (fun i => 3 * i) n,
    ← Finset.mul_sum, Finset.sum_range_id]

/-- C9: for every list of n base hex colors, palette synthesis produces
exactly n·7 + C(n,2)·3 candidate entries, with no de-duplication. -/
theorem c9_palette_candidate_count (hexes : List String) :
    (generateMixedPalette hexes).length = hexes.length * 7 + (hexes.length.choose 2) * 3 := by
  unfold generateMixedPalette
  rw [List.length_append, List.length_append, List.length_map,
    length_flatMap_const _ _ 6 (by intro a _; simp [tintFracs]),
    pair_blend_length _ _ (by intro i j; simp [blendFracs]),
    List.length_map, Nat.choose_two_right]
  ring

/-- C3 counterexample: for the base palette `["#000000", "#FFFFFF"]` the
synthesized candidate set has 17 entries (2·7 + C(2,2)·3), not the 11 the
claim states. -/
theorem c3_candidate_count_cex :
    (generateMixedPalette ["#000000", "#FFFFFF"]).length ≠ 11 ∧
    (generateMixedPalette ["#000000", "#FFFFFF"]).length = 17 := by
  constructor
  · decide
  · decide

theorem sqrt_cmp_neg_forward (a b s d : ℝ) (hs : 0 ≤ s) (hq : s ^ 2 = d)
    (hb : b < 0) (hlt : 40000 * a ^ 2 * d < b ^ 2) : b < 200 * a * s := by
  nlinarith [sq_nonneg (b - 200 * a * s), sq_nonneg (b + 200 * a * s)]

theorem sqrt_cmp_neg_backward (a b s d : ℝ) (ha : a < 0) (hs : 0 ≤ s) (hq : s ^ 2 = d)
    (hb : b < 0) (h : b < 200 * a * s) : 40000 * a ^ 2 * d < b ^ 2 := by
  nlinarith [sq_nonneg s, mul_nonneg (neg_nonneg.mpr ha.le) hs]

theorem sqrt_cmp_pos_forward (a b s d : ℝ) (ha : 0 ≤ a) (hs : 0 ≤ s) (hq : s ^ 2 = d)
    (hlt : b ^ 2 < 40000 * a ^ 2 * d) : b < 200 * a * s := by
  nlinarith [sq_nonneg (b - 200 * a * s), sq_nonneg (b + 200 * a * s),
    mul_nonneg ha hs]

theorem sqrt_cmp_pos_backward (a b s d : ℝ) (ha : 0 ≤ a) (hs : 0 ≤ s) (hq : s ^ 2 = d)
    (hb : 0 ≤ b) (h : b < 200 * a * s) : b ^ 2 < 40000 * a ^ 2 * d := by
  nlinarith [sq_nonneg s, mul_nonneg ha hs]

theorem sqrt_dom_neg (a s d : ℝ) (hs : 0 ≤ s) (hq : s ^ 2 = d)
    (h : 10000 * d < a ^ 2) (ha : a < 0) : 100 * s < -a := by
  nlinarith [sq_nonneg (100 * s + a), sq_nonneg (100 * s - a)]

theorem sqrt_dom_nonneg (a s d : ℝ) (ha : a < 0) (hs : 0 ≤ s) (hq : s ^ 2 = d)
    (h : a ^ 2 ≤ 10000 * d) : 0 ≤ a + 100 * s := by
  nlinarith [sq_nonneg (100 * s + a)]

theorem scoreLT_iff (a1 d1 a2 d2 : ℕ) :
    scoreLT a1 d1 a2 d2 = true ↔
      (a1 : ℝ) + 100 * Real.sqrt d1 < (a2 : ℝ) + 100 * Real.sqrt d2 := by
  have hs1 : (0 : ℝ) ≤ Real.sqrt d1 := Real.sqrt_nonneg _
  have hs2 : (0 : ℝ) ≤ Real.sqrt d2 := Real.sqrt_nonneg _
  have hq1 : Real.sqrt d1 ^ 2 = (d1 : ℝ) := Real.sq_sqrt (by positivity)
  have hq2 : Real.sqrt d2 ^ 2 = (d2 : ℝ) := Real.sq_sqrt (by positivity)
  set s1 := Real.sqrt d1 with hs1def
  set s2 := Real.sqrt d2 with hs2def
  clear_value s1 s2
  clear hs1def hs2def
  have goal_iff : ((a1 : ℝ) + 100 * s1 < (a2 : ℝ) + 100 * s2) ↔
      (100 * s1 < ((a2 : ℝ) - a1) + 100 * s2) := by constructor <;> intro <;> linarith
  rw [goal_iff]
  clear goal_iff
  unfold scoreLT
  set A : ℤ := (a2 : ℤ) - (a1 : ℤ) with hAdef
  have hAR : ((A : ℤ) : ℝ) = (a2 : ℝ) - a1 := by push_cast [hAdef]; ring
  rw [← hAR]
  clear_value A
  clear hAdef hAR
  by_cases hneg : A < 0 ∧ 10000 * (d2 : ℤ) < A ^ 2
  · rw [if_pos hneg]
    have hA0 : ((A : ℤ) : ℝ) < 0 := by exact_mod_cast hneg.1
    have hd2A : 10000 * (d2 : ℝ) < ((A : ℤ) : ℝ) ^ 2 := by exact_mod_cast hneg.2
    constructor
    · intro h; exact absurd h (by simp)
    · intro h
      exfalso
      -- here  ↑A + 100·s2 < 0 ≤ 100·s1, contradicting h
      have h100 : 100 * s2 < -((A : ℤ) : ℝ) := sqrt_dom_neg _ _ _ hs2 hq2 hd2A hA0
      nlinarith
  · rw [if_neg hneg]
    -- the right-hand side of the comparison is nonnegative here
    have hrhs : 0 ≤ ((A : ℤ) : ℝ) + 100 * s2 := by
      by_cases hA : 0 ≤ A
      · have h0 : (0 : ℝ) ≤ ((A : ℤ) : ℝ) := by exact_mod_cast hA
        linarith
      · push_neg at hA
        have h2 : A ^ 2 ≤ 10000 * (d2 : ℤ) := by
          by_contra hlt
          exact hneg ⟨hA, by omega⟩
        have h2R : (((A : ℤ) : ℝ)) ^ 2 ≤ 10000 * (d2 : ℝ) := by exact_mod_cast h2
        have hA0 : ((A : ℤ) : ℝ) < 0 := by exact_mod_cast hA
        exact sqrt_dom_nonneg _ _ _ hA0 hs2 hq2 h2R
    have hsq : (100 * s1 < ((A : ℤ) : ℝ) + 100 * s2) ↔
        ((100 * s1) ^ 2 < (((A : ℤ) : ℝ) + 100 * s2) ^ 2) :=
      (pow_lt_pow_iff_left₀ (by positivity) hrhs (by norm_num)).symm
    set B : ℤ := 10000 * (d1 : ℤ) - 10000 * (d2 : ℤ) - A ^ 2 with hBdef
    have hBR : ((B : ℤ) : ℝ) = 10000 * (d1 : ℝ) - 10000 * (d2 : ℝ) - ((A : ℤ) : ℝ) ^ 2 := by
      push_cast [hBdef]; ring
    clear_value B
    clear hBdef
    have hsq2 : ((100 * s1) ^ 2 < (((A : ℤ) : ℝ) + 100 * s2) ^ 2) ↔
        (((B : ℤ) : ℝ) < 200 * ((A : ℤ) : ℝ) * s2) := by
      have hexpand : (((A : ℤ) : ℝ) + 100 * s2) ^ 2 =
          ((A : ℤ) : ℝ) ^ 2 + 200 * ((A : ℤ) : ℝ) * s2 + 10000 * s2 ^ 2 := by ring
      have h1 : (100 * s1) ^ 2 = 10000 * s1 ^ 2 := by ring
      rw [hexpand, h1, hq1, hq2, hBR]
      constructor <;> intro <;> linarith
    rw [hsq, hsq2]
    clear hsq hsq2 hrhs hneg
    by_cases hA : 0 ≤ A
    · rw [if_pos hA, Bool.or_eq_true, decide_eq_true_eq, decide_eq_true_eq]
      have hAR0 : (0 : ℝ) ≤ ((A : ℤ) : ℝ) := by exact_mod_cast hA
      constructor
      · intro h
        rcases h with h | h
        · have hB0 : ((B : ℤ) : ℝ) < 0 := by exact_mod_cast h
          have hpos : 0 ≤ 200 * ((A : ℤ) : ℝ) * s2 := by positivity
          linarith
        · have hBsqR : (((B : ℤ) : ℝ)) ^ 2 < 40000 * ((A : ℤ) : ℝ) ^ 2 * (d2 : ℝ) := by
            exact_mod_cast h
          exact sqrt_cmp_pos_forward _ _ _ _ hAR0 hs2 hq2 hBsqR
      · intro h
        rcases lt_or_le B 0 with hB | hB
        · exact Or.inl hB
        · refine Or.inr ?_
          have hB0R : (0 : ℝ) ≤ ((B : ℤ) : ℝ) := by exact_mod_cast hB
          have hres : (((B : ℤ) : ℝ)) ^ 2 < 40000 * ((A : ℤ) : ℝ) ^ 2 * (d2 : ℝ) :=
            sqrt_cmp_pos_backward _ _ _ _ hAR0 hs2 hq2 hB0R h
          exact_mod_cast hres
    · rw [if_neg hA, Bool.and_eq_true, decide_eq_true_eq, decide_eq_true_eq]
      push_neg at hA
      have hAR0 : ((A : ℤ) : ℝ) < 0 := by exact_mod_cast hA
      have hrhs_np : 200 * ((A : ℤ) : ℝ) * s2 ≤ 0 := by
        have h0 : 0 ≤ 200 * (-((A : ℤ) : ℝ)) * s2 :=
          mul_nonneg (mul_nonneg (by norm_num : (0 : ℝ) ≤ 200) (by linarith)) hs2
        linarith
      constructor
      · intro h
        rcases h with ⟨hB, hBsq⟩
        have hB0R : ((B : ℤ) : ℝ) < 0 := by exact_mod_cast hB
        have hBsqR : 40000 * ((A : ℤ) : ℝ) ^ 2 * (d2 : ℝ) < (((B : ℤ) : ℝ)) ^ 2 := by
          exact_mod_cast hBsq
        exact sqrt_cmp_neg_forward _ _ _ _ hs2 hq2 hB0R hBsqR
      · intro h
        have hB0R : ((B : ℤ) : ℝ) < 0 := lt_of_lt_of_le h hrhs_np
        have hB0 : B < 0 := by exact_mod_cast hB0R
        refine ⟨hB0, ?_⟩
        have hres : 40000 * ((A : ℤ) : ℝ) ^ 2 * (d2 : ℝ) < (((B : ℤ) : ℝ)) ^ 2 :=
          sqrt_cmp_neg_backward _ _ _ _ hAR0 hs2 hq2 hB0R h
        exact_mod_cast hres

/-- `distGTeps` decides exactly the comparison `maxDistance > epsilon` of
`simplifyContour`, where `maxDistance` is the real perpendicular distance
`|num| / √den` of `perpendicularDistance` (and 0 for a degenerate chord,
the `denominator === 0` early return). -/
theorem distGTeps_iff (v : ℕ) (den : ℤ) (hden : 0 ≤ den) (eps : ℚ) :
    distGTeps v den eps = true ↔
      (eps : ℝ) < (if den = 0 then 0 else (v : ℝ) / Real.sqrt (den : ℝ)) := by
  unfold distGTeps
  rcases eq_or_ne den 0 with hd | hd
  · subst hd
    rw [if_pos rfl, if_pos rfl, decide_eq_true_eq]
    constructor <;> intro h <;> exact_mod_cast h
  · have hdpos : (0 : ℤ) < den := lt_of_le_of_ne hden (Ne.symm hd)
    have hdr : (0 : ℝ) < (den : ℝ) := by exact_mod_cast hdpos
    have hspos : 0 < Real.sqrt (den : ℝ) := Real.sqrt_pos.mpr hdr
    have hsq : Real.sqrt (den : ℝ) ^ 2 = (den : ℝ) := Real.sq_sqrt hdr.le
    rw [if_neg hd, if_neg hd, lt_div_iff₀ hspos, Bool.or_eq_true,
      decide_eq_true_eq, decide_eq_true_eq]
    set s := Real.sqrt (den : ℝ) with hsdef
    clear_value s
    clear hsdef
    have hcast1 : (eps < 0) ↔ ((eps : ℝ) < 0) := by
      constructor <;> intro h <;> exact_mod_cast h
    have hcast2 : (eps ^ 2 * (den : ℚ) < ((v : ℚ)) ^ 2) ↔
        ((eps : ℝ) ^ 2 * ((den : ℤ) : ℝ) < ((v : ℝ)) ^ 2) := by
      constructor <;> intro h <;> exact_mod_cast h
    rw [hcast1, hcast2, ← hsq]
    have hv0 : (0 : ℝ) ≤ (v : ℝ) := Nat.cast_nonneg v
    set q := ((eps : ℚ) : ℝ) with hqdef
    clear_value q
    clear hqdef hden hdpos hdr hd hcast1 hcast2
    constructor
    · rintro (hneg | hlt)
      · have hqs : q * s < 0 := mul_neg_of_neg_of_pos hneg hspos
        linarith
      · by_cases hq : q < 0
        · have hqs : q * s < 0 := mul_neg_of_neg_of_pos hq hspos
          linarith
        · push_neg at hq
          nlinarith [mul_nonneg hq hspos.le]
    · intro hlt
      by_cases hq : q < 0
      · exact Or.inl hq
      · push_neg at hq
        exact Or.inr (by nlinarith [mul_nonneg hq hspos.le])

/-- C3 amended: the base palette `["#000000", "#FFFFFF"]` synthesizes exactly
17 candidates (not 11), and remapping the pixel (128,128,128) still selects
the value (128,128,128) — the 0.5-ratio black/white blend value, which is
shared by the three zero-score candidates — with alpha preserved. -/
theorem c3_amended_midgray_scenario :
    (generateMixedPalette ["#000000", "#FFFFFF"]).length = 17 ∧
    remapImageToPalette [128, 128, 128, 200] ["#000000", "#FFFFFF"] =
      Except.ok [128, 128, 128, 200] := by
  constructor
  · decide
  · decide

/-- Every synthesized palette entry stores the luminosity of its own rgb
channels (each push in `generateMixedPalette` computes it on the spot). -/
theorem mem_generateMixedPalette_wf (hexes : List String) :
    ∀ e ∈ generateMixedPalette hexes, e.lum = lum1000 e.r e.g e.b := by
  intro e he
  unfold generateMixedPalette at he
  simp only [List.mem_append, List.mem_map, List.mem_flatMap] at he
  rcases he with ((⟨c, _, rfl⟩ | ⟨c, _, (⟨f, _, rfl⟩ | ⟨f, _, rfl⟩)⟩) | ⟨i, _, j, _, he⟩)
  · rfl
  · rfl
  · rfl
  · by_cases hij : i < j
    · rw [if_pos hij] at he
      simp only [List.mem_map] at he
      obtain ⟨f, _, rfl⟩ := he
      rfl
    · rw [if_neg hij] at he
      exact absurd he (List.not_mem_nil e)

/-- The sorted palette is a permutation of the synthesized one, so its
entries are well-formed too. -/
theorem mem_sortedPalette_wf (hexes : List String) :
    ∀ e ∈ sortedPalette hexes, e.lum = lum1000 e.r e.g e.b := by
  intro e he
  exact mem_generateMixedPalette_wf hexes e ((List.mem_insertionSort lumLE).mp he)

/-- On well-formed entries the specification score is the positive multiple
`(3/2000)` of `keyR`, so strict comparisons of the two agree. -/
theorem scoreSpec_eq_keyR (r g b : ℕ) (c : PalEntry)
    (hc : c.lum = lum1000 c.r c.g c.b) :
    scoreSpec r g b c = (3 / 2000) * keyR r g b c := by
  unfold scoreSpec keyR
  have hlum : (0.299 * (r : ℝ) + 0.587 * (g : ℝ) + 0.114 * (b : ℝ)) -
      (0.299 * (c.r : ℝ) + 0.587 * (c.g : ℝ) + 0.114 * (c.b : ℝ)) =
      (((lum1000 r g b : ℤ) - (c.lum : ℤ) : ℤ) : ℝ) / 1000 := by
    rw [hc]
    unfold lum1000
    push_cast
    ring
  have habs : |(0.299 * (r : ℝ) + 0.587 * (g : ℝ) + 0.114 * (b : ℝ)) -
      (0.299 * (c.r : ℝ) + 0.587 * (c.g : ℝ) + 0.114 * (c.b : ℝ))| =
      (scoreA r g b c : ℝ) / 1000 := by
    rw [hlum, abs_div]
    unfold scoreA
    rw [Int.cast_natAbs]
    norm_num
  have hdist : ((scoreD r g b c : ℕ) : ℝ) =
      ((r : ℝ) - c.r) ^ 2 + ((g : ℝ) - c.g) ^ 2 + ((b : ℝ) - c.b) ^ 2 := by
    unfold scoreD
    have hnn : (0 : ℤ) ≤ ((r : ℤ) - c.r) ^ 2 + ((g : ℤ) - c.g) ^ 2 + ((b : ℤ) - c.b) ^ 2 := by
      positivity
    rw [show (((((r : ℤ) - c.r) ^ 2 + ((g : ℤ) - c.g) ^ 2 + ((b : ℤ) - c.b) ^ 2).toNat : ℕ) : ℝ) =
        ((((r : ℤ) - c.r) ^ 2 + ((g : ℤ) - c.g) ^ 2 + ((b : ℤ) - c.b) ^ 2 : ℤ) : ℝ) by
      rw [← Int.cast_natCast]
      rw [Int.toNat_of_nonneg hnn]]
    push_cast
    ring
  rw [habs, ← hdist]
  ring

theorem bestStep_go (r g b : ℕ) :
    ∀ (rest pre : List PalEntry) (be : PalEntry),
      IsFirstMin (keyR r g b) be pre →
      ∃ e', rest.foldl (bestStep r g b) (be, some (scoreA r g b be, scoreD r g b be)) =
          (e', some (scoreA r g b e', scoreD r g b e')) ∧
        IsFirstMin (keyR r g b) e' (pre ++ rest) := by
  intro rest
  induction rest with
  | nil =>
      intro pre be hbe
      exact ⟨be, rfl, by simpa using hbe⟩
  | cons c rest ih =>
      intro pre be hbe
      rw [List.foldl_cons]
      show ∃ e', List.foldl (bestStep r g b)
          (bestStep r g b (be, some (scoreA r g b be, scoreD r g b be)) c) rest =
          (e', some (scoreA r g b e', scoreD r g b e')) ∧ _
      have hstep : bestStep r g b (be, some (scoreA r g b be, scoreD r g b be)) c =
          if scoreLT (scoreA r g b c) (scoreD r g b c) (scoreA r g b be) (scoreD r g b be) then
            (c, some (scoreA r g b c, scoreD r g b c))
          else (be, some (scoreA r g b be, scoreD r g b be)) := rfl
      by_cases hlt : scoreLT (scoreA r g b c) (scoreD r g b c)
          (scoreA r g b be) (scoreD r g b be) = true
      · rw [hstep, if_pos hlt]
        have hklt : keyR r g b c < keyR r g b be := by
          have h0 := (scoreLT_iff (scoreA r g b c) (scoreD r g b c)
            (scoreA r g b be) (scoreD r g b be)).mp hlt
          unfold keyR
          exact h0
        obtain ⟨l1, l2, hsplit, hstrict, hall⟩ := hbe
        have hnew : IsFirstMin (keyR r g b) c (pre ++ [c]) := by
          refine ⟨pre, [], rfl, ?_, ?_⟩
          · intro x hx
            exact lt_of_lt_of_le hklt (hall x hx)
          · intro x hx
            rcases List.mem_append.mp hx with hx | hx
            · exact le_of_lt (lt_of_lt_of_le hklt (hall x hx))
            · rcases List.mem_singleton.mp hx with rfl
              exact le_refl _
        obtain ⟨e', heq, hmin⟩ := ih (pre ++ [c]) c hnew
        refine ⟨e', heq, ?_⟩
        rw [List.append_assoc] at hmin
        simpa using hmin
      · rw [hstep, if_neg hlt]
        have hge : keyR r g b be ≤ keyR r g b c := by
          by_contra hcon
          push_neg at hcon
          exact hlt ((scoreLT_iff (scoreA r g b c) (scoreD r g b c)
            (scoreA r g b be) (scoreD r g b be)).mpr hcon)
        obtain ⟨l1, l2, hsplit, hstrict, hall⟩ := hbe
        have hnew : IsFirstMin (keyR r g b) be (pre ++ [c]) := by
          refine ⟨l1, l2 ++ [c], by rw [hsplit]; simp, hstrict, ?_⟩
          intro x hx
          rcases List.mem_append.mp hx with hx | hx
          · exact hall x hx
          · rcases List.mem_singleton.mp hx with rfl
            exact hge
        obtain ⟨e', heq, hmin⟩ := ih (pre ++ [c]) be hnew
        refine ⟨e', heq, ?_⟩
        rw [List.append_assoc] at hmin
        simpa using hmin

theorem pickBest_spec (r g b : ℕ) (e0 : PalEntry) (rest : List PalEntry) :
    ∃ e', pickBest r g b e0 (e0 :: rest) = e' ∧
      IsFirstMin (keyR r g b) e' (e0 :: rest) := by
  unfold pickBest
  rw [List.foldl_cons]
  have h0 : bestStep r g b (e0, none) e0 =
      (e0, some (scoreA r g b e0, scoreD r g b e0)) := rfl
  rw [h0]
  have hinit : IsFirstMin (keyR r g b) e0 [e0] := by
    refine ⟨[], [], rfl, ?_, ?_⟩
    · intro x hx
      exact absurd hx (List.not_mem_nil x)
    · intro x hx
      rcases List.mem_singleton.mp hx with rfl
      exact le_refl _
  obtain ⟨e', heq, hmin⟩ := bestStep_go r g b rest [e0] e0 hinit
  exact ⟨e', by rw [heq], by simpa using hmin⟩

theorem getD_cons4 (x y z w d : ℕ) (l : List ℕ) (n : ℕ) :
    (x :: y :: z :: w :: l).getD (n + 4) d = l.getD n d := by
  have h4 : n + 4 = n + 1 + 1 + 1 + 1 := by omega
  rw [h4]
  simp [List.getD_cons_succ]

theorem remapLoop_quadAt (sorted : List PalEntry) (e0 : PalEntry) :
    ∀ (p : ℕ) (buf : List ℕ), 4 * p + 3 < buf.length →
      quadAt (remapLoop sorted e0 buf) p =
        ((pickBest (buf.getD (4 * p) 0) (buf.getD (4 * p + 1) 0)
            (buf.getD (4 * p + 2) 0) e0 sorted).r,
          (pickBest (buf.getD (4 * p) 0) (buf.getD (4 * p + 1) 0)
            (buf.getD (4 * p + 2) 0) e0 sorted).g,
          (pickBest (buf.getD (4 * p) 0) (buf.getD (4 * p + 1) 0)
            (buf.getD (4 * p + 2) 0) e0 sorted).b,
          buf.getD (4 * p + 3) 0) := by
  intro p
  induction p with
  | zero =>
      intro buf hlen
      rcases buf with _ | ⟨r, _ | ⟨g, _ | ⟨b, _ | ⟨a, rest⟩⟩⟩⟩ <;>
        simp only [List.length_nil, List.length_cons] at hlen <;> try omega
      rfl
  | succ p ih =>
      intro buf hlen
      rcases buf with _ | ⟨r, _ | ⟨g, _ | ⟨b, _ | ⟨a, rest⟩⟩⟩⟩ <;>
        simp only [List.length_nil, List.length_cons] at hlen <;> try omega
      have hlen' : 4 * p + 3 < rest.length := by omega
      have e1 : 4 * (p + 1) = 4 * p + 4 := by ring
      have e2 : 4 * p + 4 + 1 = 4 * p + 1 + 4 := by ring
      have e3 : 4 * p + 4 + 2 = 4 * p + 2 + 4 := by ring
      have e4 : 4 * p + 4 + 3 = 4 * p + 3 + 4 := by ring
      show quadAt (_ :: _ :: _ :: _ :: remapLoop sorted e0 rest) (p + 1) = _
      unfold quadAt
      rw [e1, e2, e3, e4, getD_cons4, getD_cons4, getD_cons4, getD_cons4,
        getD_cons4, getD_cons4, getD_cons4, getD_cons4]
      have hres := ih rest hlen'
      unfold quadAt at hres
      exact hres

theorem generateMixedPalette_ne_nil (hexes : List String) (h : hexes ≠ []) :
    generateMixedPalette hexes ≠ [] := by
  unfold generateMixedPalette
  intro hc
  rcases hexes with _ | ⟨x, rest⟩
  · exact h rfl
  · simp at hc

theorem sortedPalette_ne_nil (hexes : List String) (h : hexes ≠ []) :
    sortedPalette hexes ≠ [] := by
  unfold sortedPalette
  intro hc
  have hlen : (generateMixedPalette hexes).length = 0 := by
    rw [← List.length_insertionSort lumLE (generateMixedPalette hexes), hc]
    rfl
  exact generateMixedPalette_ne_nil hexes h (List.length_eq_zero.mp hlen)

/-- C4: for every input pixel and nonempty base palette, `remapImageToPalette`
writes the candidate of the luminosity-sorted expanded palette with the
strictly lowest score `1.5·|pixelLuminosity − candidateLuminosity| +
0.15·EuclideanRGBDistance`; ties are resolved in favor of the candidate
encountered first in the sorted scan (every earlier candidate scores strictly
higher, no candidate scores lower), and the pixel's alpha channel is copied
through unchanged. -/
theorem c4_remap_first_argmin (buf : List ℕ) (hexes : List String) (p : ℕ)
    (hne : hexes ≠ []) (hp : 4 * p + 3 < buf.length) :
    ∃ (out : List ℕ) (c : PalEntry) (l1 l2 : List PalEntry),
      remapImageToPalette buf hexes = Except.ok out ∧
      sortedPalette hexes = l1 ++ c :: l2 ∧
      quadAt out p = (c.r, c.g, c.b, buf.getD (4 * p + 3) 0) ∧
      (∀ e ∈ l1,
        scoreSpec (buf.getD (4 * p) 0) (buf.getD (4 * p + 1) 0)
            (buf.getD (4 * p + 2) 0) c <
          scoreSpec (buf.getD (4 * p) 0) (buf.getD (4 * p + 1) 0)
            (buf.getD (4 * p + 2) 0) e) ∧
      (∀ e ∈ sortedPalette hexes,
        scoreSpec (buf.getD (4 * p) 0) (buf.getD (4 * p + 1) 0)
            (buf.getD (4 * p + 2) 0) c ≤
          scoreSpec (buf.getD (4 * p) 0) (buf.getD (4 * p + 1) 0)
            (buf.getD (4 * p + 2) 0) e) := by
  obtain ⟨e0, rest, hsorted⟩ : ∃ e0 rest, sortedPalette hexes = e0 :: rest := by
    rcases hs : sortedPalette hexes with _ | ⟨e0, rest⟩
    · exact absurd hs (sortedPalette_ne_nil hexes hne)
    · exact ⟨e0, rest, rfl⟩
  have hremap : remapImageToPalette buf hexes =
      Except.ok (remapLoop (e0 :: rest) e0 buf) := by
    unfold remapImageToPalette
    rw [hsorted]
  obtain ⟨cbest, hpick, l1, l2, hsplit, hstrict, hall⟩ :=
    pickBest_spec (buf.getD (4 * p) 0) (buf.getD (4 * p + 1) 0)
      (buf.getD (4 * p + 2) 0) e0 rest
  have hwf : ∀ e ∈ sortedPalette hexes, e.lum = lum1000 e.r e.g e.b :=
    mem_sortedPalette_wf hexes
  have hcbest_mem : cbest ∈ sortedPalette hexes := by
    rw [hsorted, hsplit]
    simp
  have hscore : ∀ e ∈ sortedPalette hexes,
      scoreSpec (buf.getD (4 * p) 0) (buf.getD (4 * p + 1) 0)
          (buf.getD (4 * p + 2) 0) e =
        (3 / 2000) * keyR (buf.getD (4 * p) 0) (buf.getD (4 * p + 1) 0)
          (buf.getD (4 * p + 2) 0) e := fun e he =>
    scoreSpec_eq_keyR _ _ _ e (hwf e he)
  refine ⟨remapLoop (e0 :: rest) e0 buf, cbest, l1, l2, hremap, ?_, ?_, ?_, ?_⟩
  · rw [hsorted]
    exact hsplit
  · rw [remapLoop_quadAt (e0 :: rest) e0 p buf hp, hpick]
  · intro e hel1
    have hemem : e ∈ sortedPalette hexes := by
      rw [hsorted, hsplit]
      exact List.mem_append.mpr (Or.inl hel1)
    rw [hscore cbest hcbest_mem, hscore e hemem]
    exact mul_lt_mul_of_pos_left (hstrict e hel1) (by norm_num)
  · intro e hemem
    rw [hscore cbest hcbest_mem, hscore e hemem]
    refine mul_le_mul_of_nonneg_left ?_ (by norm_num)
    exact hall e (by rw [← hsorted]; exact hemem)

/-- C4 witness: the theorem instantiated at the single-pixel buffer
(128,128,128,200) with the one-color base palette `["#0000FF"]`. -/
theorem c4_remap_first_argmin_witness :
    ∃ (out : List ℕ) (c : PalEntry) (l1 l2 : List PalEntry),
      remapImageToPalette [128, 128, 128, 200] ["#0000FF"] = Except.ok out ∧
      sortedPalette ["#0000FF"] = l1 ++ c :: l2 ∧
      quadAt out 0 = (c.r, c.g, c.b, ([128, 128, 128, 200] : List ℕ).getD (4 * 0 + 3) 0) ∧
      (∀ e ∈ l1,
        scoreSpec (([128, 128, 128, 200] : List ℕ).getD (4 * 0) 0)
            (([128, 128, 128, 200] : List ℕ).getD (4 * 0 + 1) 0)
            (([128, 128, 128, 200] : List ℕ).getD (4 * 0 + 2) 0) c <
          scoreSpec (([128, 128, 128, 200] : List ℕ).getD (4 * 0) 0)
            (([128, 128, 128, 200] : List ℕ).getD (4 * 0 + 1) 0)
            (([128, 128, 128, 200] : List ℕ).getD (4 * 0 + 2) 0) e) ∧
      (∀ e ∈ sortedPalette ["#0000FF"],
        scoreSpec (([128, 128, 128, 200] : List ℕ).getD (4 * 0) 0)
            (([128, 128, 128, 200] : List ℕ).getD (4 * 0 + 1) 0)
            (([128, 128, 128, 200] : List ℕ).getD (4 * 0 + 2) 0) c ≤
          scoreSpec (([128, 128, 128, 200] : List ℕ).getD (4 * 0) 0)
            (([128, 128, 128, 200] : List ℕ).getD (4 * 0 + 1) 0)
            (([128, 128, 128, 200] : List ℕ).getD (4 * 0 + 2) 0) e) :=
  c4_remap_first_argmin [128, 128, 128, 200] ["#0000FF"] 0 (by decide) (by decide)

theorem getD_range_map (f : ℕ → ℕ) (n j d : ℕ) :
    ((List.range n).map f).getD j d = if j < n then f j else d := by
  by_cases hj : j < n
  · rw [if_pos hj, List.getD_eq_getElem?_getD, List.getElem?_map, List.getElem?_range hj]
    rfl
  · rw [if_neg hj, List.getD_eq_getElem?_getD, List.getElem?_eq_none]
    · rfl
    · simpa using Nat.le_of_not_lt hj

theorem get?_range_map (f : ℕ → ℕ) (n j : ℕ) (hj : j < n) :
    ((List.range n).map f).get? j = some (f j) := by
  rw [List.get?_eq_getElem?, List.getElem?_map, List.getElem?_range hj]
  rfl

theorem grid_lt (w h yy xx : ℕ) (hy : yy < h) (hx : xx < w) : yy * w + xx < w * h := by
  calc yy * w + xx < yy * w + w := by omega
    _ = (yy + 1) * w := by ring
    _ ≤ h * w := Nat.mul_le_mul_right w hy
    _ = w * h := Nat.mul_comm h w

/-- C5: `detectEdges` on a uniform-color image (every pixel equal) contains
zero edge pixels — no pixel of the output carries the opaque-black edge
encoding (0,0,0,255) — for every positive threshold. -/
theorem c5_uniform_no_edges (w h r0 g0 b0 a0 t : ℕ) (buf : List ℕ)
    (hlen : buf.length = 4 * w * h)
    (huni : ∀ q, q < w * h → quadAt buf q = (r0, g0, b0, a0))
    (ht : 0 < t) :
    ∀ p, quadAt (detectEdgesSobel buf w h t) p ≠ (0, 0, 0, 255) := by
  intro p heq
  unfold quadAt detectEdgesSobel at heq
  rw [Prod.ext_iff, Prod.ext_iff, Prod.ext_iff] at heq
  obtain ⟨h1, _, _, h4⟩ := heq
  simp only at h1 h4
  rw [getD_range_map] at h1 h4
  by_cases hin : 4 * p + 3 < buf.length
  · have hin1 : 4 * p < buf.length := by omega
    rw [if_pos hin] at h4
    rw [if_pos hin1] at h1
    have hlen' : buf.length = 4 * (w * h) := by rw [hlen]; ring
    have hp : p < w * h := by omega
    have hdiv0 : 4 * p / 4 = p := by omega
    have hmod0 : 4 * p % 4 = 0 := by omega
    have hdiv3 : (4 * p + 3) / 4 = p := by omega
    have hmod3 : (4 * p + 3) % 4 = 3 := by omega
    unfold sobelByte at h1 h4
    rw [hdiv0, hmod0] at h1
    rw [hdiv3, hmod3] at h4
    by_cases hint : 1 ≤ p % w ∧ p % w + 1 < w ∧ 1 ≤ p / w ∧ p / w + 1 < h
    · rw [if_pos hint] at h1
      -- in the interior the uniform image has zero gradient, so no edge
      have hgray : ∀ q, q < w * h → grayAt buf q = lum1000 r0 g0 b0 := by
        intro q hq
        have h0 := huni q hq
        unfold quadAt at h0
        rw [Prod.ext_iff, Prod.ext_iff, Prod.ext_iff] at h0
        obtain ⟨e1, e2, e3, _⟩ := h0
        simp only at e1 e2 e3
        unfold grayAt
        rw [e1, e2, e3]
      obtain ⟨hx1, hx2, hy1, hy2⟩ := hint
      have hxw : p % w < w := by omega
      have hyh : p / w < h := by omega
      have hq1 : (p / w - 1) * w + (p % w - 1) < w * h := grid_lt w h _ _ (by omega) (by omega)
      have hq2 : (p / w - 1) * w + (p % w) < w * h := grid_lt w h _ _ (by omega) (by omega)
      have hq3 : (p / w - 1) * w + (p % w + 1) < w * h := grid_lt w h _ _ (by omega) (by omega)
      have hq4 : (p / w) * w + (p % w - 1) < w * h := grid_lt w h _ _ (by omega) (by omega)
      have hq5 : (p / w) * w + (p % w + 1) < w * h := grid_lt w h _ _ (by omega) (by omega)
      have hq6 : (p / w + 1) * w + (p % w - 1) < w * h := grid_lt w h _ _ (by omega) (by omega)
      have hq7 : (p / w + 1) * w + (p % w) < w * h := grid_lt w h _ _ (by omega) (by omega)
      have hq8 : (p / w + 1) * w + (p % w + 1) < w * h := grid_lt w h _ _ (by omega) (by omega)
      have hgx : sobelGx buf w (p % w) (p / w) = 0 := by
        unfold sobelGx
        rw [hgray _ hq1, hgray _ hq3, hgray _ hq4, hgray _ hq5, hgray _ hq6, hgray _ hq8]
        ring
      have hgy : sobelGy buf w (p % w) (p / w) = 0 := by
        unfold sobelGy
        rw [hgray _ hq1, hgray _ hq2, hgray _ hq3, hgray _ hq6, hgray _ hq7, hgray _ hq8]
        ring
      by_cases hedge : sobelEdge buf w t (p % w) (p / w) = true
      · have hcon := hedge
        unfold sobelEdge at hcon
        rw [decide_eq_true_eq, hgx, hgy] at hcon
        have : (0 : ℤ) ≤ 1000000 * (t : ℤ) ^ 2 := by positivity
        omega
      · rw [if_neg hedge] at h1
        exact absurd h1 (by norm_num)
    · rw [if_neg hint] at h4
      exact absurd h4 (by norm_num)
  · rw [if_neg hin] at h4
    exact absurd h4 (by norm_num)

/-- C5 witness: the theorem applied to the concrete 3×3 uniform image with
color (5,5,5,255) and threshold 1, at the center pixel. -/
theorem c5_uniform_no_edges_witness :
    quadAt (detectEdgesSobel
      [5, 5, 5, 255, 5, 5, 5, 255, 5, 5, 5, 255,
       5, 5, 5, 255, 5, 5, 5, 255, 5, 5, 5, 255,
       5, 5, 5, 255, 5, 5, 5, 255, 5, 5, 5, 255] 3 3 1) 4 ≠ (0, 0, 0, 255) :=
  c5_uniform_no_edges 3 3 5 5 5 255 1 _ (by decide) (by decide) (by decide) 4

/-- A border pixel (or any non-interior pixel) of the Sobel output keeps all
four zero-initialized bytes, because the convolution loops start at 1 and
stop at width−2 / height−2. -/
theorem sobelByte_border_zero (buf : List ℕ) (w h t p c : ℕ) (hc : c < 4) (hw : 0 < w)
    (hb : p % w = 0 ∨ p % w = w - 1 ∨ p / w = 0 ∨ p / w = h - 1) :
    sobelByte buf w h t (4 * p + c) = 0 := by
  unfold sobelByte
  have hd : (4 * p + c) / 4 = p := by omega
  rw [hd]
  set x := p % w with hxdef
  set y := p / w with hydef
  have hxw : x < w := Nat.mod_lt p hw
  have hnot : ¬(1 ≤ x ∧ x + 1 < w ∧ 1 ≤ y ∧ y + 1 < h) := by
    rcases hb with hb | hb | hb | hb <;> omega
  rw [if_neg hnot]

theorem detectEdgesSobel_length (buf : List ℕ) (w h t : ℕ) :
    (detectEdgesSobel buf w h t).length = buf.length := by
  unfold detectEdgesSobel
  rw [List.length_map, List.length_range]

/-- C10 (implicit): for every image of width ≥ 3 and height ≥ 3 and any
threshold, every pixel on the 1-pixel border of the `detectEdges` output has
all four channels equal to 0 — transparent black, not white; consequently
`thickenLines` with thickness > 1, which classifies a pixel as an edge by
its red channel being 0 alone, dilates every border pixel into an opaque
black square: every in-grid pixel within radius ⌊thickness/2⌋ of a border
pixel comes out (0,0,0,255). -/
theorem c10_border_transparent_black_thicken (buf : List ℕ) (w h t k : ℕ)
    (hlen : buf.length = 4 * w * h) (hw : 3 ≤ w) (hh : 3 ≤ h) (hk : 2 ≤ k) :
    (∀ p, p < w * h → (p % w = 0 ∨ p % w = w - 1 ∨ p / w = 0 ∨ p / w = h - 1) →
      quadAt (detectEdgesSobel buf w h t) p = (0, 0, 0, 0)) ∧
    (∀ p q, p < w * h → (p % w = 0 ∨ p % w = w - 1 ∨ p / w = 0 ∨ p / w = h - 1) →
      q < w * h → Nat.dist (q % w) (p % w) ≤ k / 2 → Nat.dist (q / w) (p / w) ≤ k / 2 →
      quadAt (thickenLines (detectEdgesSobel buf w h t) w h k) q = (0, 0, 0, 255)) := by
  have hlen' : buf.length = 4 * (w * h) := by rw [hlen]; ring
  have hborder0 : ∀ p, p < w * h →
      (p % w = 0 ∨ p % w = w - 1 ∨ p / w = 0 ∨ p / w = h - 1) →
      ∀ c, c < 4 → (detectEdgesSobel buf w h t).getD (4 * p + c) 0 = 0 := by
    intro p hp hb c hc
    unfold detectEdgesSobel
    rw [getD_range_map, if_pos (by omega : 4 * p + c < buf.length)]
    exact sobelByte_border_zero buf w h t p c hc (by omega) hb
  constructor
  · intro p hp hb
    unfold quadAt
    rw [show 4 * p = 4 * p + 0 by ring]
    rw [hborder0 p hp hb 0 (by norm_num),
      show 4 * p + 0 + 1 = 4 * p + 1 by ring, hborder0 p hp hb 1 (by norm_num),
      show 4 * p + 0 + 2 = 4 * p + 2 by ring, hborder0 p hp hb 2 (by norm_num),
      show 4 * p + 0 + 3 = 4 * p + 3 by ring, hborder0 p hp hb 3 (by norm_num)]
  · intro p q hp hb hq hdx hdy
    have hedges_len : (detectEdgesSobel buf w h t).length = buf.length :=
      detectEdgesSobel_length buf w h t
    unfold thickenLines
    rw [if_neg (by omega : ¬ k ≤ 1)]
    have hnear : nearEdge (detectEdgesSobel buf w h t) w h (k / 2) (q % w) (q / w) = true := by
      unfold nearEdge
      rw [decide_eq_true_eq]
      refine ⟨p % w, Nat.mod_lt p (by omega), p / w,
        (Nat.div_lt_iff_lt_mul (by omega : 0 < w)).mpr (Nat.mul_comm w h ▸ hp), ?_, hdx, hdy⟩
      unfold isEdgePx
      rw [decide_eq_true_eq]
      have hpw : p / w * w + p % w = p := by
        rw [Nat.mul_comm]
        exact Nat.div_add_mod p w
      rw [hpw]
      unfold detectEdgesSobel
      rw [get?_range_map _ _ _ (by omega : 4 * p < buf.length)]
      have h0 := sobelByte_border_zero buf w h t p 0 (by norm_num) (by omega) hb
      rw [Nat.add_zero] at h0
      rw [h0]
    have hbyte : ∀ c, c < 3 →
        thickByte (detectEdgesSobel buf w h t) w h k (4 * q + c) = 0 := by
      intro c hc
      unfold thickByte
      have hd : (4 * q + c) / 4 = q := by omega
      have hm : (4 * q + c) % 4 = c := by omega
      rw [hd, hm, if_neg (by omega : ¬ c = 3), if_pos ⟨hq, hnear⟩]
    have hbyte3 : thickByte (detectEdgesSobel buf w h t) w h k (4 * q + 3) = 255 := by
      unfold thickByte
      have hm : (4 * q + 3) % 4 = 3 := by omega
      rw [hm, if_pos rfl]
    unfold quadAt
    rw [getD_range_map, getD_range_map, getD_range_map, getD_range_map, hedges_len,
      if_pos (by omega : 4 * q < buf.length),
      if_pos (by omega : 4 * q + 1 < buf.length),
      if_pos (by omega : 4 * q + 2 < buf.length),
      if_pos (by omega : 4 * q + 3 < buf.length)]
    rw [show 4 * q = 4 * q + 0 by ring]
    rw [hbyte 0 (by norm_num),
      show 4 * q + 0 + 1 = 4 * q + 1 by ring, hbyte 1 (by norm_num),
      show 4 * q + 0 + 2 = 4 * q + 2 by ring, hbyte 2 (by norm_num),
      show 4 * q + 0 + 3 = 4 * q + 3 by ring, hbyte3]

/-- C10 witness: the theorem applied to a concrete all-zero 3×3 image with
threshold 5 and thickness 3, at border pixel 0 and its neighbor pixel 1. -/
theorem c10_border_transparent_black_thicken_witness :
    quadAt (detectEdgesSobel
      [0, 0, 0, 0, 0, 0, 0, 0, 0, 0, 0, 0, 0, 0, 0, 0, 0, 0,
       0, 0, 0, 0, 0, 0, 0, 0, 0, 0, 0, 0, 0, 0, 0, 0, 0, 0] 3 3 5) 0 = (0, 0, 0, 0) ∧
    quadAt (thickenLines (detectEdgesSobel
      [0, 0, 0, 0, 0, 0, 0, 0, 0, 0, 0, 0, 0, 0, 0, 0, 0, 0,
       0, 0, 0, 0, 0, 0, 0, 0, 0, 0, 0, 0, 0, 0, 0, 0, 0, 0] 3 3 5) 3 3 3) 1 =
      (0, 0, 0, 255) :=
  ⟨(c10_border_transparent_black_thicken _ 3 3 5 3 (by decide) (by decide) (by decide)
      (by decide)).1 0 (by decide) (by decide),
    (c10_border_transparent_black_thicken _ 3 3 5 3 (by decide) (by decide) (by decide)
      (by decide)).2 0 1 (by decide) (by decide) (by decide) (by decide) (by decide)⟩

/-- C1 amended: no engine entry point validates buffer geometry; each function
processes whatever buffer it receives.  In particular `quantizeImage` is
independent of its width/height arguments, and `quantizeImage`,
`posterizeImage` and `detectEdgesSobel` return a same-length output for
every buffer, including buffers whose length is not a multiple of 4 or
inconsistent with width×height×4. -/
theorem c1_amended_no_validation (buf : List ℕ) (w h w2 h2 L t : ℕ) :
    quantizeImage buf w h L = quantizeImage buf w2 h2 L ∧
    (quantizeImage buf w h L).length = buf.length ∧
    (posterizeImage buf L).length = buf.length ∧
    (detectEdgesSobel buf w h t).length = buf.length := by
  exact ⟨rfl, quantizeLoop_length L buf, quantizeLoop_length L buf,
    detectEdgesSobel_length buf w h t⟩

theorem head?_eq_getD {α : Type} [Inhabited α] (l : List α) (h : l ≠ []) (d : α) :
    l.head? = some (l.getD 0 d) := by
  cases l with
  | nil => exact absurd rfl h
  | cons a t => rfl

theorem getLast?_eq_getD {α : Type} [Inhabited α] (l : List α) (h : l ≠ []) (d : α) :
    l.getLast? = some (l.getD (l.length - 1) d) := by
  rw [List.getLast?_eq_getElem? l, List.getD_eq_getElem?_getD]
  have hlt : l.length - 1 < l.length := by
    cases l with
    | nil => exact absurd rfl h
    | cons a t => simp
  rw [List.getElem?_eq_getElem hlt]
  rfl

theorem head?_take_succ {α : Type} (l : List α) (i : ℕ) :
    (l.take (i + 1)).head? = l.head? := by
  cases l <;> rfl

theorem getLast?_drop_of_lt {α : Type} :
    ∀ (i : ℕ) (l : List α), i < l.length → (l.drop i).getLast? = l.getLast? := by
  intro i
  induction i with
  | zero => intro l _; rfl
  | succ i ih =>
      intro l hl
      cases l with
      | nil => simp at hl
      | cons a t =>
          have ht : i < t.length := by simp at hl; omega
          have htne : t ≠ [] := by
            intro hc
            rw [hc] at ht
            simp at ht
          rw [List.drop_succ_cons, ih t ht]
          cases t with
          | nil => exact absurd rfl htne
          | cons b t2 => rw [List.getLast?_cons_cons]

theorem head?_dropLast_of_two_le {α : Type} (l : List α) (h : 2 ≤ l.length) :
    l.dropLast.head? = l.head? := by
  cases l with
  | nil => simp at h
  | cons a t =>
      cases t with
      | nil => simp at h
      | cons b t2 => rfl

theorem foldl_max_mem (f : ℕ → ℕ) (P : ℕ → Prop) :
    ∀ (l : List ℕ) (acc : ℕ × ℕ),
      (0 < acc.2 → P acc.1) → (∀ i ∈ l, P i) →
      0 < (l.foldl (fun a i => if a.2 < f i then (i, f i) else a) acc).2 →
      P (l.foldl (fun a i => if a.2 < f i then (i, f i) else a) acc).1 := by
  intro l
  induction l with
  | nil => intro acc hacc _ hpos; exact hacc hpos
  | cons i t ih =>
      intro acc hacc hmem hpos
      rw [List.foldl_cons] at hpos ⊢
      refine ih _ ?_ (fun j hj => hmem j (by simp [hj])) hpos
      by_cases hlt : acc.2 < f i
      · rw [if_pos hlt]
        intro _
        exact hmem i (by simp)
      · rw [if_neg hlt]
        exact hacc

/-- When the scan records a positive maximum distance, the split index is an
interior index of the list. -/
theorem maxPerp_interior (pts : List (ℤ × ℤ)) (hpos : 0 < (maxPerp pts).2) :
    1 ≤ (maxPerp pts).1 ∧ (maxPerp pts).1 ≤ pts.length - 2 := by
  unfold maxPerp at hpos ⊢
  by_cases hden : chordDen (pts.getD 0 (0, 0)) (pts.getD (pts.length - 1) (0, 0)) = 0
  · rw [if_pos hden] at hpos
    simp at hpos
  · rw [if_neg hden] at hpos ⊢
    refine foldl_max_mem
      (fun i => (perpNum (pts.getD i (0, 0)) (pts.getD 0 (0, 0))
        (pts.getD (pts.length - 1) (0, 0))).natAbs)
      (fun i => 1 ≤ i ∧ i ≤ pts.length - 2) _ (0, 0) (by intro h0; simp at h0) ?_ hpos
    intro i hi
    simp only [List.mem_map, List.mem_range] at hi
    obtain ⟨j, hj, rfl⟩ := hi
    omega

theorem simplifyFuel_spec (eps : ℚ) (heps : 0 ≤ eps) :
    ∀ (fuel : ℕ) (pts : List (ℤ × ℤ)), pts.length < fuel →
      ∃ out, simplifyFuel fuel pts eps = some out ∧
        out.length ≤ pts.length ∧
        out.head? = pts.head? ∧
        out.getLast? = pts.getLast? ∧
        (2 ≤ pts.length → 2 ≤ out.length) ∧
        (pts.length < 3 → out = pts) := by
  intro fuel
  induction fuel with
  | zero => intro pts h; omega
  | succ fuel ih =>
      intro pts hfuel
      by_cases hshort : pts.length < 3
      · refine ⟨pts, ?_, le_refl _, rfl, rfl, fun h => h, fun _ => rfl⟩
        unfold simplifyFuel
        rw [if_pos hshort]
      · push_neg at hshort
        have hne : pts ≠ [] := by
          intro hc
          rw [hc] at hshort
          simp at hshort
        by_cases hgt : distGTeps (maxPerp pts).2
            (chordDen (pts.getD 0 (0, 0)) (pts.getD (pts.length - 1) (0, 0))) eps = true
        · -- recursive branch: the split index is interior
          have hvpos : 0 < (maxPerp pts).2 := by
            unfold distGTeps at hgt
            by_cases hden : chordDen (pts.getD 0 (0, 0))
                (pts.getD (pts.length - 1) (0, 0)) = 0
            · rw [if_pos hden, decide_eq_true_eq] at hgt
              exact absurd heps (by exact not_le.mpr hgt)
            · rw [if_neg hden, Bool.or_eq_true, decide_eq_true_eq, decide_eq_true_eq] at hgt
              rcases hgt with hgt | hgt
              · exact absurd heps (not_le.mpr hgt)
              · have hden_nonneg : (0 : ℤ) ≤ chordDen (pts.getD 0 (0, 0))
                    (pts.getD (pts.length - 1) (0, 0)) := by
                  unfold chordDen
                  positivity
                have hq0 : (0 : ℚ) ≤ eps ^ 2 * ((chordDen (pts.getD 0 (0, 0))
                    (pts.getD (pts.length - 1) (0, 0)) : ℤ) : ℚ) := by
                  have : (0 : ℚ) ≤ ((chordDen (pts.getD 0 (0, 0))
                      (pts.getD (pts.length - 1) (0, 0)) : ℤ) : ℚ) := by
                    exact_mod_cast hden_nonneg
                  positivity
                have hv2 : (0 : ℚ) < ((maxPerp pts).2 : ℚ) ^ 2 := lt_of_le_of_lt hq0 hgt
                by_contra hz
                push_neg at hz
                interval_cases h2 : (maxPerp pts).2
                simp at hv2
          obtain ⟨hi1, hi2⟩ := maxPerp_interior pts hvpos
          have hleft_len : (pts.take ((maxPerp pts).1 + 1)).length = (maxPerp pts).1 + 1 := by
            rw [List.length_take]
            omega
          have hright_len : (pts.drop (maxPerp pts).1).length =
              pts.length - (maxPerp pts).1 := by
            rw [List.length_drop]
          obtain ⟨lout, hleq, hllen, hlhead, hllast, hl2, _⟩ :=
            ih (pts.take ((maxPerp pts).1 + 1)) (by omega)
          obtain ⟨rout, hreq, hrlen, hrhead, hrlast, hr2, _⟩ :=
            ih (pts.drop ((maxPerp pts).1)) (by rw [hright_len]; omega)
          have hl2' : 2 ≤ lout.length := hl2 (by omega)
          have hr2' : 2 ≤ rout.length := hr2 (by rw [hright_len]; omega)
          refine ⟨lout.dropLast ++ rout, ?_, ?_, ?_, ?_, ?_, ?_⟩
          · unfold simplifyFuel
            rw [if_neg (by omega), if_pos hgt, hleq, hreq]
            rfl
          · rw [List.length_append, List.length_dropLast]
            omega
          · rw [List.head?_append_of_ne_nil _
              (by
                intro hc
                have := congrArg List.length hc
                rw [List.length_dropLast] at this
                simp at this
                omega),
              head?_dropLast_of_two_le lout hl2', hlhead, head?_take_succ]
          · rw [List.getLast?_append_of_ne_nil _
              (by
                intro hc
                rw [hc] at hr2'
                simp at hr2'),
              hrlast, getLast?_drop_of_lt _ _ (by omega)]
          · intro _
            rw [List.length_append, List.length_dropLast]
            omega
          · intro h3
            omega
        · -- chord collapse branch
          refine ⟨[pts.getD 0 (0, 0), pts.getD (pts.length - 1) (0, 0)], ?_, ?_, ?_, ?_, ?_, ?_⟩
          · unfold simplifyFuel
            rw [if_neg (by omega)]
            rw [if_neg (by
              intro hc
              exact hgt hc)]
          · simp
            omega
          · rw [head?_eq_getD pts hne (0, 0)]
            rfl
          · rw [getLast?_eq_getD pts hne (0, 0)]
            rfl
          · intro _
            simp
          · intro h3
            omega

/-- C8 counterexample: for the three collinear points (0,0), (1,0), (2,0)
and epsilon −1, the recursion never terminates (`maxDistance > epsilon`
holds with the split index 0, so one recursive call receives the whole
input again); in the fuel model the computation exhausts any fuel
proportional to the input and returns `none` instead of a simplified
list. -/
theorem c8_negative_epsilon_cex :
    simplifyContour [(0, 0), (1, 0), (2, 0)] (-1) = none := by
  decide

/-- C8 amended: for every point list and every epsilon ≥ 0, `simplifyContour`
terminates and returns a list no longer than its input that retains the
input's first and last point; inputs of fewer than 3 points are returned
unchanged (the latter holds for every epsilon).  For negative epsilon the
recursion can diverge (see the counterexample). -/
theorem c8_amended_simplify_bounds (pts : List (ℤ × ℤ)) (eps : ℚ) (heps : 0 ≤ eps) :
    ∃ out, simplifyContour pts eps = some out ∧
      out.length ≤ pts.length ∧
      out.head? = pts.head? ∧
      out.getLast? = pts.getLast? ∧
      (pts.length < 3 → out = pts) := by
  obtain ⟨out, heq, hlen, hhead, hlast, _, hshort⟩ :=
    simplifyFuel_spec eps heps (pts.length + 1) pts (by omega)
  exact ⟨out, heq, hlen, hhead, hlast, hshort⟩

/-- C8 witness: the amended theorem applied to a concrete 3-point contour
with the engine's default epsilon 2.5. -/
theorem c8_amended_simplify_bounds_witness :
    ∃ out, simplifyContour [(0, 0), (5, 3), (10, 0)] (5 / 2) = some out ∧
      out.length ≤ ([(0, 0), (5, 3), (10, 0)] : List (ℤ × ℤ)).length ∧
      out.head? = ([(0, 0), (5, 3), (10, 0)] : List (ℤ × ℤ)).head? ∧
      out.getLast? = ([(0, 0), (5, 3), (10, 0)] : List (ℤ × ℤ)).getLast? ∧
      (([(0, 0), (5, 3), (10, 0)] : List (ℤ × ℤ)).length < 3 → out = [(0, 0), (5, 3), (10, 0)]) :=
  c8_amended_simplify_bounds [(0, 0), (5, 3), (10, 0)] (5 / 2) (by norm_num)

theorem walkLoop_iter_le (region : Finset (ℤ × ℤ)) (w h : ℕ) (start : ℤ × ℤ)
    (maxIter size : ℕ) :
    ∀ (fuel : ℕ) (st : WalkState), st.iter < maxIter →
      (walkLoop region w h start maxIter size fuel st).iter ≤ maxIter := by
  intro fuel
  induction fuel with
  | zero => intro st hlt; exact le_of_lt hlt
  | succ fuel ih =>
      intro st hlt
      simp only [walkLoop]
      split
      · exact le_of_lt hlt
      · split
        · next hguard => exact ih _ hguard.2.1
        · exact hlt

theorem walkLoop_stop (region : Finset (ℤ × ℤ)) (w h : ℕ) (start : ℤ × ℤ)
    (maxIter size : ℕ) :
    ∀ (fuel : ℕ) (st : WalkState), maxIter + 1 ≤ fuel + st.iter →
      (((walkLoop region w h start maxIter size fuel st).x,
          (walkLoop region w h start maxIter size fuel st).y) = start ∨
        maxIter ≤ (walkLoop region w h start maxIter size fuel st).iter ∨
        findNext region w h (walkLoop region w h start maxIter size fuel st).x
          (walkLoop region w h start maxIter size fuel st).y
          (walkLoop region w h start maxIter size fuel st).dir = none ∨
        size ≤ (walkLoop region w h start maxIter size fuel st).contour.length) := by
  intro fuel
  induction fuel with
  | zero =>
      intro st hf
      right; left
      show maxIter ≤ st.iter
      omega
  | succ fuel ih =>
      intro st hf
      simp only [walkLoop]
      split
      · next hfind =>
          right; right; left
          exact hfind
      · next nx ny cd hfind =>
          split
          · next hguard =>
              exact ih _ (by show maxIter + 1 ≤ fuel + (st.iter + 1); omega)
          · next hguard =>
              by_cases h1 : (nx, ny) = start
              · left
                exact h1
              · by_cases h2 : st.iter + 1 < maxIter
                · right; right; right
                  show size ≤ (st.contour ++ [(st.x, st.y)]).length
                  by_contra h3
                  push_neg at h3
                  exact hguard ⟨h1, h2, h3⟩
                · right; left
                  show maxIter ≤ st.iter + 1
                  omega

/-- C6 counterexample: on the 3-pixel region (0,0)–(2,0) of a 3×1 image,
starting at (0,0), the walk stops after 3 steps at (1,0) — not back at the
start, below the cap min(2·3, 10000) = 6, and with a qualifying neighbor
still available — because of the loop's additional (unlisted) condition
`contour.length < region.size`.  None of the three stop reasons the claim
allows holds at the final state. -/
theorem c6_stop_reason_cex :
    cexRegion.card = 3 ∧
    (traceWalk cexRegion 3 1 0 0).iter = 3 ∧
    ¬(((traceWalk cexRegion 3 1 0 0).x, (traceWalk cexRegion 3 1 0 0).y) =
        ((0 : ℤ), (0 : ℤ)) ∨
      min (2 * cexRegion.card) 10000 ≤ (traceWalk cexRegion 3 1 0 0).iter ∨
      findNext cexRegion 3 1 (traceWalk cexRegion 3 1 0 0).x
        (traceWalk cexRegion 3 1 0 0).y (traceWalk cexRegion 3 1 0 0).dir = none) := by
  decide

/-- C6 amended: the boundary walk terminates after at most
min(2·regionSize, 10000) steps, and it stops only on return to the start,
on reaching the step cap, when no qualifying neighbor exists, OR when the
traced contour length reaches the region size (the additional conjunct of
the loop condition); regions under 3 pixels are skipped, and traced paths
under 4 points are discarded (empty result). -/
theorem c6_amended_walk_termination (region : Finset (ℤ × ℤ)) (w h : ℕ)
    (sx sy : ℤ) (hcard : 3 ≤ region.card) :
    (traceWalk region w h sx sy).iter ≤ min (2 * region.card) 10000 ∧
    (((traceWalk region w h sx sy).x, (traceWalk region w h sx sy).y) = (sx, sy) ∨
      min (2 * region.card) 10000 ≤ (traceWalk region w h sx sy).iter ∨
      findNext region w h (traceWalk region w h sx sy).x (traceWalk region w h sx sy).y
        (traceWalk region w h sx sy).dir = none ∨
      region.card ≤ (traceWalk region w h sx sy).contour.length) ∧
    (∀ r2 : Finset (ℤ × ℤ), r2.card < 3 → traceContour r2 w h sx sy = []) ∧
    ((traceWalk region w h sx sy).contour.length ≤ 3 →
      traceContour region w h sx sy = []) := by
  have hmax : 6 ≤ min (2 * region.card) 10000 := by omega
  refine ⟨?_, ?_, ?_, ?_⟩
  · exact walkLoop_iter_le region w h (sx, sy) (min (2 * region.card) 10000)
      region.card (min (2 * region.card) 10000 + 1) ⟨[], sx, sy, 0, 0⟩
      (by show (0 : ℕ) < min (2 * region.card) 10000; omega)
  · exact walkLoop_stop region w h (sx, sy) (min (2 * region.card) 10000)
      region.card (min (2 * region.card) 10000 + 1) ⟨[], sx, sy, 0, 0⟩
      (by show min (2 * region.card) 10000 + 1 ≤
        min (2 * region.card) 10000 + 1 + (0 : ℕ); omega)
  · intro r2 h2
    unfold traceContour
    rw [if_pos h2]
  · intro hlen
    unfold traceContour
    rw [if_neg (by omega), if_neg (by omega)]

/-- C6 witness: the amended theorem applied to the concrete 3-pixel region
of the counterexample. -/
theorem c6_amended_walk_termination_witness :
    (traceWalk cexRegion 3 1 0 0).iter ≤ min (2 * cexRegion.card) 10000 ∧
    (((traceWalk cexRegion 3 1 0 0).x, (traceWalk cexRegion 3 1 0 0).y) =
        ((0 : ℤ), (0 : ℤ)) ∨
      min (2 * cexRegion.card) 10000 ≤ (traceWalk cexRegion 3 1 0 0).iter ∨
      findNext cexRegion 3 1 (traceWalk cexRegion 3 1 0 0).x
        (traceWalk cexRegion 3 1 0 0).y (traceWalk cexRegion 3 1 0 0).dir = none ∨
      cexRegion.card ≤ (traceWalk cexRegion 3 1 0 0).contour.length) ∧
    (∀ r2 : Finset (ℤ × ℤ), r2.card < 3 → traceContour r2 3 1 0 0 = []) ∧
    ((traceWalk cexRegion 3 1 0 0).contour.length ≤ 3 →
      traceContour cexRegion 3 1 0 0 = []) :=
  c6_amended_walk_termination cexRegion 3 1 0 0 (by decide)

theorem sampledPixels_length_pos (buf : List ℕ) (s : ℕ) (hb : buf ≠ []) (hs : 1 ≤ s) :
    1 ≤ (sampledPixels buf s).length := by
  unfold sampledPixels
  rw [List.length_map, List.length_range]
  have hlen : 1 ≤ buf.length := by
    cases buf with
    | nil => exact absurd rfl hb
    | cons a t => simp
  rw [Nat.le_div_iff_mul_le (by omega : 0 < 4 * s)]
  omega

theorem filterMap_length_all {α : Type} (f : ℕ → Option α) :
    ∀ l : List ℕ, (∀ i ∈ l, (f i).isSome) → (l.filterMap f).length = l.length := by
  intro l
  induction l with
  | nil => intro _; rfl
  | cons i t ih =>
      intro hall
      obtain ⟨v, hv⟩ := Option.isSome_iff_exists.mp (hall i (by simp))
      rw [List.filterMap_cons, hv, List.length_cons, ih (fun j hj => hall j (by simp [hj]))]
      rfl

theorem initCentroids_length (pixels : List RGBA) (k : ℕ) (hn : 1 ≤ pixels.length) :
    (initCentroids pixels k).length = k := by
  unfold initCentroids
  rw [filterMap_length_all _ _ ?_, List.length_range]
  intro i hi
  rw [List.mem_range] at hi
  have hidx : i * (pixels.length / k) < pixels.length := by
    rcases Nat.eq_zero_or_pos (pixels.length / k) with h0 | hpos
    · rw [h0]
      omega
    · have h1 : i * (pixels.length / k) ≤ (k - 1) * (pixels.length / k) :=
        Nat.mul_le_mul_right _ (by omega)
      have h2 : (k - 1) * (pixels.length / k) < k * (pixels.length / k) :=
        (Nat.mul_lt_mul_right hpos).mpr (by omega)
      have h3 : k * (pixels.length / k) ≤ pixels.length := by
        rw [Nat.mul_comm]
        exact Nat.div_mul_le_self pixels.length k
      omega
  rw [if_pos hidx, List.get?_eq_get hidx]
  rfl

theorem kmeansStep_ok (pixels : List RGBA) (k : ℕ) (cs : List (Option RGBA))
    (hp : pixels ≠ []) (hk : 1 ≤ k) (hlen : cs.length = k)
    (hall : ∀ c ∈ cs, c.isSome) :
    ∃ cs', kmeansStep pixels k cs = Except.ok cs' ∧ cs'.length = k ∧
      ∀ c ∈ cs', c.isSome := by
  unfold kmeansStep
  rw [if_neg (by simpa using hp)]
  rw [if_neg (by
    intro hany
    rw [List.any_eq_true] at hany
    obtain ⟨c, hc, hnone⟩ := hany
    have hsome := hall c hc
    rw [Option.isNone_iff_eq_none] at hnone
    rw [hnone] at hsome
    simp at hsome)]
  rw [if_neg (by omega)]
  refine ⟨_, rfl, by rw [List.length_map, List.length_range], ?_⟩
  intro c hc
  rw [List.mem_map] at hc
  obtain ⟨i, hi, rfl⟩ := hc
  rw [List.mem_range] at hi
  by_cases hmem : (pixels.filter fun p => assignIdx (cs.filterMap id) p = i).isEmpty
  · rw [if_pos hmem]
    unfold slotAt
    have hget : cs.get? i ≠ none := by
      rw [Ne, List.get?_eq_none]
      omega
    rcases hg : cs.get? i with _ | c
    · exact absurd hg hget
    · exact hall c (List.get?_mem hg)
  · rw [if_neg hmem]
    rfl

theorem mapM_all_some :
    ∀ l : List (Option RGBA), (∀ c ∈ l, c.isSome) →
      ∃ out, (l.mapM fun c =>
        match c with
        | some c => Except.ok (⟨c.r, c.g, c.b, rgbToHex c.r c.g c.b⟩ : ColorCluster)
        | none =>
            Except.error "TypeError: cannot read properties of undefined") =
          Except.ok out ∧ out.length = l.length := by
  intro l
  induction l with
  | nil => exact fun _ => ⟨[], rfl, rfl⟩
  | cons c t ih =>
      intro hall
      obtain ⟨v, hv⟩ := Option.isSome_iff_exists.mp (hall c (by simp))
      obtain ⟨out, hout, hlen⟩ := ih fun x hx => hall x (by simp [hx])
      subst hv
      refine ⟨⟨v.r, v.g, v.b, rgbToHex v.r v.g v.b⟩ :: out, ?_, by simp [hlen]⟩
      rw [List.mapM_cons, hout]
      rfl

theorem sampledPixels_nil (s : ℕ) : sampledPixels [] s = [] := by
  unfold sampledPixels
  have h0 : (([] : List ℕ).length + 4 * s - 1) / (4 * s) = 0 := by
    rcases Nat.eq_zero_or_pos s with rfl | hs
    · rfl
    · apply Nat.div_eq_of_lt
      simp
      omega
  rw [h0]
  rfl

theorem initCentroids_nil (k : ℕ) : initCentroids [] k = [] := by
  unfold initCentroids
  rw [List.filterMap_eq_nil_iff]
  intro i _
  rw [if_neg (by simp)]

theorem slotAt_none (cs : List (Option RGBA)) (hall : ∀ c ∈ cs, c = none) (i : ℕ) :
    slotAt cs i = none := by
  unfold slotAt
  rcases hg : cs.get? i with _ | c
  · rfl
  · exact hall c (List.get?_mem hg)

theorem kmeansStep_no_pixels (k : ℕ) (cs : List (Option RGBA)) :
    kmeansStep [] k cs = Except.ok ((List.range k).map fun i => slotAt cs i) := by
  unfold kmeansStep
  rw [if_pos (show ([] : List RGBA).isEmpty = true from rfl)]

theorem all_none_slots (k : ℕ) (cs : List (Option RGBA)) (hall : ∀ c ∈ cs, c = none) :
    ∀ c ∈ (List.range k).map fun i => slotAt cs i, c = none := by
  intro c hc
  rw [List.mem_map] at hc
  obtain ⟨i, _, rfl⟩ := hc
  exact slotAt_none cs hall i

theorem mapM_first_none (l : List (Option RGBA)) (hne : l ≠ [])
    (hall : ∀ c ∈ l, c = none) :
    (l.mapM fun c =>
      match c with
      | some c => Except.ok (⟨c.r, c.g, c.b, rgbToHex c.r c.g c.b⟩ : ColorCluster)
      | none => Except.error "TypeError: cannot read properties of undefined") =
      Except.error "TypeError: cannot read properties of undefined" := by
  cases l with
  | nil => exact absurd rfl hne
  | cons c t =>
      have hc : c = none := hall c (by simp)
      subst hc
      rw [List.mapM_cons]
      rfl

/-- C2 counterexample: sampling the 1-pixel buffer (10,20,30,255) with
stride 1 yields one sample, yet `extractDominantColors` with k = 2 returns
exactly 2 centroids (both equal to the lone sample), not fewer than k: the
degenerate seed step `⌊1/2⌋ = 0` picks `pixels[0]` twice. -/
theorem c2_undersample_full_k_cex :
    (sampledPixels [10, 20, 30, 255] 1).length = 1 ∧
    extractDominantColors [10, 20, 30, 255] 1 1 2 1 =
      Except.ok [⟨10, 20, 30, "#0A141E"⟩, ⟨10, 20, 30, "#0A141E"⟩] := by
  constructor
  · decide
  · decide

/-- C2 amended: for every well-formed buffer (length a multiple of 4), every
k ≥ 1 and stride ≥ 1: if the buffer is nonempty — so at least one pixel is
sampled — `extractDominantColors` returns exactly k centroids, even when the
sample count is below k; and on the empty buffer (empty sample set) it does
not degrade gracefully but fails with a TypeError, because the final
centroid-to-color mapping reads a channel of an undefined centroid. -/
theorem c2_amended_centroid_count :
    (∀ (buf : List ℕ) (w h k s : ℕ), 4 ∣ buf.length → buf ≠ [] → 1 ≤ k → 1 ≤ s →
      ∃ cs, extractDominantColors buf w h k s = Except.ok cs ∧ cs.length = k) ∧
    (∀ (w h k s : ℕ), 1 ≤ k →
      extractDominantColors [] w h k s =
        Except.error "TypeError: cannot read properties of undefined") := by
  constructor
  · intro buf w h k s _ hb hk hs
    have hpix : 1 ≤ (sampledPixels buf s).length := sampledPixels_length_pos buf s hb hs
    have hpne : sampledPixels buf s ≠ [] := by
      intro hc
      rw [hc] at hpix
      simp at hpix
    have hinit_len : ((initCentroids (sampledPixels buf s) k).map some).length = k := by
      rw [List.length_map]
      exact initCentroids_length _ k hpix
    have hinit_all : ∀ c ∈ (initCentroids (sampledPixels buf s) k).map some,
        c.isSome := by
      intro c hc
      rw [List.mem_map] at hc
      obtain ⟨v, _, rfl⟩ := hc
      rfl
    obtain ⟨cs1, h1, h1len, h1all⟩ :=
      kmeansStep_ok (sampledPixels buf s) k _ hpne hk hinit_len hinit_all
    obtain ⟨cs2, h2, h2len, h2all⟩ := kmeansStep_ok (sampledPixels buf s) k cs1 hpne hk h1len h1all
    obtain ⟨cs3, h3, h3len, h3all⟩ := kmeansStep_ok (sampledPixels buf s) k cs2 hpne hk h2len h2all
    obtain ⟨out, hout, houtlen⟩ := mapM_all_some cs3 h3all
    refine ⟨out, ?_, by omega⟩
    show (do
      let cs1 ← kmeansStep (sampledPixels buf s) k
        ((initCentroids (sampledPixels buf s) k).map some)
      let cs2 ← kmeansStep (sampledPixels buf s) k cs1
      let cs3 ← kmeansStep (sampledPixels buf s) k cs2
      cs3.mapM fun c =>
        match c with
        | some c => Except.ok (⟨c.r, c.g, c.b, rgbToHex c.r c.g c.b⟩ : ColorCluster)
        | none => Except.error "TypeError: cannot read properties of undefined") =
      Except.ok out
    rw [h1]
    show (do
      let cs2 ← kmeansStep (sampledPixels buf s) k cs1
      let cs3 ← kmeansStep (sampledPixels buf s) k cs2
      cs3.mapM fun c =>
        match c with
        | some c => Except.ok (⟨c.r, c.g, c.b, rgbToHex c.r c.g c.b⟩ : ColorCluster)
        | none => Except.error "TypeError: cannot read properties of undefined") =
      Except.ok out
    rw [h2]
    show (do
      let cs3 ← kmeansStep (sampledPixels buf s) k cs2
      cs3.mapM fun c =>
        match c with
        | some c => Except.ok (⟨c.r, c.g, c.b, rgbToHex c.r c.g c.b⟩ : ColorCluster)
        | none => Except.error "TypeError: cannot read properties of undefined") =
      Except.ok out
    rw [h3]
    show cs3.mapM (fun c =>
      match c with
      | some c => Except.ok (⟨c.r, c.g, c.b, rgbToHex c.r c.g c.b⟩ : ColorCluster)
      | none => Except.error "TypeError: cannot read properties of undefined") =
      Except.ok out
    exact hout
  · intro w h k s hk
    show (do
      let cs1 ← kmeansStep (sampledPixels [] s) k
        ((initCentroids (sampledPixels [] s) k).map some)
      let cs2 ← kmeansStep (sampledPixels [] s) k cs1
      let cs3 ← kmeansStep (sampledPixels [] s) k cs2
      cs3.mapM fun c =>
        match c with
        | some c => Except.ok (⟨c.r, c.g, c.b, rgbToHex c.r c.g c.b⟩ : ColorCluster)
        | none => Except.error "TypeError: cannot read properties of undefined") =
      Except.error "TypeError: cannot read properties of undefined"
    rw [sampledPixels_nil, initCentroids_nil]
    rw [show (List.map some ([] : List RGBA)) = ([] : List (Option RGBA)) from rfl]
    rw [kmeansStep_no_pixels]
    have hall1 : ∀ c ∈ (List.range k).map fun i => slotAt ([] : List (Option RGBA)) i,
        c = none := all_none_slots k [] (by intro c hc; simp at hc)
    show (do
      let cs2 ← kmeansStep [] k ((List.range k).map fun i => slotAt [] i)
      let cs3 ← kmeansStep [] k cs2
      cs3.mapM fun c =>
        match c with
        | some c => Except.ok (⟨c.r, c.g, c.b, rgbToHex c.r c.g c.b⟩ : ColorCluster)
        | none => Except.error "TypeError: cannot read properties of undefined") =
      Except.error "TypeError: cannot read properties of undefined"
    rw [kmeansStep_no_pixels]
    have hall2 := all_none_slots k _ hall1
    show (do
      let cs3 ← kmeansStep [] k ((List.range k).map fun i =>
        slotAt ((List.range k).map fun i => slotAt [] i) i)
      cs3.mapM fun c =>
        match c with
        | some c => Except.ok (⟨c.r, c.g, c.b, rgbToHex c.r c.g c.b⟩ : ColorCluster)
        | none => Except.error "TypeError: cannot read properties of undefined") =
      Except.error "TypeError: cannot read properties of undefined"
    rw [kmeansStep_no_pixels]
    have hall3 := all_none_slots k _ hall2
    refine mapM_first_none _ ?_ hall3
    intro hc
    have hlen := congrArg List.length hc
    rw [List.length_map, List.length_range] at hlen
    simp at hlen
    omega

/-- C2 witness: the amended theorem applied to a concrete 2-pixel buffer
with k = 3 (sample count 2 < k, still exactly 3 centroids) and to the empty
buffer (TypeError). -/
theorem c2_amended_centroid_count_witness :
    (∃ cs, extractDominantColors [9, 9, 9, 255, 1, 2, 3, 4] 2 1 3 1 = Except.ok cs ∧
      cs.length = 3) ∧
    extractDominantColors [] 2 1 3 1 =
      Except.error "TypeError: cannot read properties of undefined" :=
  ⟨c2_amended_centroid_count.1 [9, 9, 9, 255, 1, 2, 3, 4] 2 1 3 1 (by decide) (by decide)
      (by decide) (by decide),
    c2_amended_centroid_count.2 2 1 3 1 (by decide)⟩
